import Mathlib

/-!
Verification development for the ng-spark repository.

The repository contains two small libraries:
  * `@ng-spark/signal-store-testing` — a tester for signal stores with a
    state-history log (`StateHistoryImpl`), polling waits
    (`waitForState`/`waitForComputed`) and method invocation (`callMethod`).
  * `@ng-spark/forms-x` — form utilities: a dirty-state tracker
    (`FormTracker` with `isEqual`/`getDiff`/`deepClone`), a reactive array
    wrapper (`SignalArray`), a debounced field directive
    (`DebounceFieldDirective`) and a debounced async validator
    (`SparkAsyncValidator`).

This file shallowly embeds the relevant JavaScript/TypeScript functions as
executable Lean definitions and proves or refutes the specification claims
about them.

Modelling conventions for JavaScript values:
  * Plain-data values are the inductive `JSVal` (primitives, dates, arrays,
    records, and opaque function references identified by a numeric id).
  * JavaScript numbers are modelled as integers, with `NaN` as a separate
    primitive (the claims never exercise fractional arithmetic).
  * `===` is modelled by `strictEq`: primitives compare by value with
    `NaN === NaN` being false; function references compare by id; dates,
    arrays, and records compare as distinct references (false).  This models
    the call sites of the tracker, where structural comparison always runs
    between a value and a deep clone of it (distinct object references).
  * JavaScript object keys are unique; well-formedness (`wfSnap`) records
    this for the list-of-pairs encoding.
-/

/-- JavaScript primitive values.  `nan` is kept separate from `num` because
`NaN === NaN` is false in JavaScript. -/
inductive Prim where
  | str : String → Prim
  | num : Int → Prim
  | nan : Prim
  | bool : Bool → Prim
  | null : Prim
  | undef : Prim

/-- Plain JavaScript values: primitives, Date objects (by their epoch
instant), opaque function references (by identity), arrays, and records. -/
inductive JSVal where
  | prim : Prim → JSVal
  | date : Int → JSVal
  | func : Nat → JSVal
  | arr : List JSVal → JSVal
  | obj : List (String × JSVal) → JSVal

namespace JSModel

open JSVal Prim

/-- Strict equality `===` on primitives: by value, except `NaN === NaN` is
false and cross-type comparisons are false (`===` performs no coercion). -/
def primEq : Prim → Prim → Bool
  | Prim.str a, Prim.str b => a == b
  | Prim.num a, Prim.num b => a == b
  | Prim.bool a, Prim.bool b => a == b
  | Prim.null, Prim.null => true
  | Prim.undef, Prim.undef => true
  | _, _ => false

/-- Strict equality `===` on `JSVal`.  Primitives compare by value (with
`NaN` never equal); function references compare by identity; dates, arrays
and records are object references and compare as distinct references here
(the tracker always compares a value against a fresh deep clone). -/
def strictEq : JSVal → JSVal → Bool
  | JSVal.prim a, JSVal.prim b => primEq a b
  | JSVal.func a, JSVal.func b => a == b
  | _, _ => false

/-- JavaScript falsiness: `false`, `0`, `NaN`, `""`, `null`, `undefined`. -/
def falsyV : JSVal → Bool
  | JSVal.prim (Prim.str s) => s == ""
  | JSVal.prim (Prim.num n) => n == 0
  | JSVal.prim Prim.nan => true
  | JSVal.prim (Prim.bool b) => !b
  | JSVal.prim Prim.null => true
  | JSVal.prim Prim.undef => true
  | _ => false

/-- `typeof v === 'object'`: true for dates, arrays, records, and `null`. -/
def objType : JSVal → Bool
  | JSVal.date _ => true
  | JSVal.arr _ => true
  | JSVal.obj _ => true
  | JSVal.prim Prim.null => true
  | _ => false

/-- First-match field lookup in a record, `undefined` when absent. -/
def lookupField : List (String × JSVal) → String → JSVal
  | [], _ => JSVal.prim Prim.undef
  | (k2, v) :: rest, k => if k2 = k then v else lookupField rest k

/-- `Object.keys`: field names for records, index strings for arrays and
strings, empty for everything else (dates and functions have no own
enumerable properties). -/
def jsKeys : JSVal → List String
  | JSVal.obj fs => fs.map Prod.fst
  | JSVal.arr l => (List.range l.length).map toString
  | JSVal.prim (Prim.str s) => (List.range s.length).map toString
  | _ => []

/-- Property read `v[k]`, `undefined` when absent.  Arrays and strings are
indexed by the decimal rendering of the index. -/
def jsGet (v : JSVal) (k : String) : JSVal :=
  match v with
  | JSVal.obj fs => lookupField fs k
  | JSVal.arr l =>
      match k.toNat? with
      | some i => match l.get? i with
                  | some x => x
                  | none => JSVal.prim Prim.undef
      | none => JSVal.prim Prim.undef
  | JSVal.prim (Prim.str s) =>
      match k.toNat? with
      | some i => match s.data.get? i with
                  | some c => JSVal.prim (Prim.str (String.mk [c]))
                  | none => JSVal.prim Prim.undef
      | none => JSVal.prim Prim.undef
  | _ => JSVal.prim Prim.undef

mutual

/-- `FormTracker.isEqual` (packages/forms-x tracker), translated line by
line:
```
if (a === b) return true;
if (!a || !b || typeof a !== 'object' || typeof b !== 'object') return a === b;
if (a instanceof Date && b instanceof Date) return a.getTime() === b.getTime();
if (Array.isArray(a) !== Array.isArray(b)) return false;
keysA/keysB length check, then per-key contains + recursive equality.
```
Since JavaScript records have unique keys, iterating `Object.keys(a)` and
looking up `a[key]` is the same as iterating the entry list of `a`, which is
what `isEqualFields` does (the lookup into `b` is kept as in the source). -/
def isEqual (a b : JSVal) : Bool :=
  if strictEq a b then true
  else if falsyV a || falsyV b || !objType a || !objType b then strictEq a b
  else
    match a, b with
    | JSVal.date t1, JSVal.date t2 => t1 == t2
    | JSVal.arr _, JSVal.date _ => false
    | JSVal.arr _, JSVal.obj _ => false
    | JSVal.date _, JSVal.arr _ => false
    | JSVal.obj _, JSVal.arr _ => false
    | JSVal.arr l, JSVal.arr m =>
        -- keys of an array are its indices: the length check is the keys
        -- length check, and index membership in keysB is implied by it.
        if l.length != m.length then false else isEqualList l m
    | JSVal.date _, JSVal.obj fs => fs.isEmpty
    | JSVal.obj fs, JSVal.date _ => fs.isEmpty
    | JSVal.obj fs, JSVal.obj gs =>
        if fs.length != gs.length then false
        else isEqualFields fs (JSVal.obj gs)
    | a, b => strictEq a b

/-- Element-wise recursion of `isEqual` over two arrays of equal length. -/
def isEqualList : List JSVal → List JSVal → Bool
  | x :: xs, y :: ys => isEqual x y && isEqualList xs ys
  | _, _ => true

/-- Per-key loop of `isEqual`: `keysB.includes(key)` and recursive equality
of `a[key]` with `b[key]`. -/
def isEqualFields : List (String × JSVal) → JSVal → Bool
  | [], _ => true
  | (k, v) :: rest, b =>
      (jsKeys b).contains k && isEqual v (jsGet b k) && isEqualFields rest b

end

/-- `FormTracker.getDiff`: `{}` if either argument is falsy, otherwise the
record of keys of `current` whose value is not `isEqual` to `base`'s value,
each mapped to `current`'s value. -/
def getDiff (base current : JSVal) : List (String × JSVal) :=
  if falsyV base || falsyV current then []
  else
    (jsKeys current).filterMap (fun k =>
      if isEqual (jsGet base k) (jsGet current k) then none
      else some (k, jsGet current k))

/-- `FormTracker.isDirty`: `!this.isEqual(current, base)`. -/
def isDirty (current base : JSVal) : Bool := !isEqual current base

/-- `FormTracker.dirtyFields`: `this.getDiff(this._baseline(), this._source())`. -/
def dirtyFields (baseline source : JSVal) : List (String × JSVal) :=
  getDiff baseline source

/-- Duplicate-free key list, computed as in JavaScript records (which can
never hold two fields of the same name). -/
def keysNodup : List String → Bool
  | [] => true
  | k :: rest => !(rest.contains k) && keysNodup rest

mutual

/-- Well-formed snapshot: the list-of-pairs encoding of every record has
duplicate-free keys, as actual JavaScript records always do. -/
def wfSnap : JSVal → Bool
  | JSVal.arr l => wfSnapList l
  | JSVal.obj fs => keysNodup (fs.map Prod.fst) && wfSnapFields fs
  | _ => true

def wfSnapList : List JSVal → Bool
  | [] => true
  | x :: xs => wfSnap x && wfSnapList xs

def wfSnapFields : List (String × JSVal) → Bool
  | [] => true
  | (_, v) :: rest => wfSnap v && wfSnapFields rest

end

mutual

/-- `true` iff the value contains no `NaN` anywhere. -/
def noNaN : JSVal → Bool
  | JSVal.prim Prim.nan => false
  | JSVal.arr l => noNaNList l
  | JSVal.obj fs => noNaNFields fs
  | _ => true

def noNaNList : List JSVal → Bool
  | [] => true
  | x :: xs => noNaN x && noNaNList xs

def noNaNFields : List (String × JSVal) → Bool
  | [] => true
  | (_, v) :: rest => noNaN v && noNaNFields rest

end

end JSModel

namespace SignalArray

/-- `SignalArray.push`: `(arr) => [...arr, ...items]`. -/
def push {α : Type} (items : List α) (arr : List α) : List α := arr ++ items

/-- `SignalArray.removeAt`: `(arr) => arr.filter((_, i) => i !== index)`.
JavaScript indices are numbers; the claims only use the nonnegative index of
an existing element, which `Nat` captures. -/
def removeAt {α : Type} (index : Nat) (arr : List α) : List α :=
  (arr.enum.filter (fun p => p.1 != index)).map Prod.snd

end SignalArray

namespace JSModel

/-- Abstract model of `Date.prototype.toJSON` (a platform builtin): an
injective string rendering of the instant.  The claims depend only on the
result being a string. -/
def dateToISO (t : Int) : String := "1970-epoch-ms:" ++ toString t

mutual

/-- The value `JSON.stringify` serializes for a JavaScript value (platform
builtin used by `StateHistoryImpl.cloneState`), composed with `JSON.parse`:
`none` means the value is omitted (`undefined` and functions); `NaN`
serializes as `null`; dates serialize as their ISO string via `toJSON`;
`undefined`/function elements of arrays serialize as `null`; record fields
whose value is omitted are dropped. -/
def jsonValue : JSVal → Option JSVal
  | JSVal.prim Prim.undef => none
  | JSVal.func _ => none
  | JSVal.prim Prim.nan => some (JSVal.prim Prim.null)
  | JSVal.prim p => some (JSVal.prim p)
  | JSVal.date t => some (JSVal.prim (Prim.str (dateToISO t)))
  | JSVal.arr l => some (JSVal.arr (jsonList l))
  | JSVal.obj fs => some (JSVal.obj (jsonFields fs))

def jsonList : List JSVal → List JSVal
  | [] => []
  | x :: xs => (jsonValue x).getD (JSVal.prim Prim.null) :: jsonList xs

def jsonFields : List (String × JSVal) → List (String × JSVal)
  | [] => []
  | (k, v) :: rest =>
      match jsonValue v with
      | some j => (k, j) :: jsonFields rest
      | none => jsonFields rest

end

mutual

/-- A value free of Date objects, `undefined`, and functions — the shape of
everything that survives a JSON round-trip. -/
def jsonClean : JSVal → Bool
  | JSVal.prim Prim.undef => false
  | JSVal.prim _ => true
  | JSVal.date _ => false
  | JSVal.func _ => false
  | JSVal.arr l => jsonCleanList l
  | JSVal.obj fs => jsonCleanFields fs

def jsonCleanList : List JSVal → Bool
  | [] => true
  | x :: xs => jsonClean x && jsonCleanList xs

def jsonCleanFields : List (String × JSVal) → Bool
  | [] => true
  | (_, v) :: rest => jsonClean v && jsonCleanFields rest

end

/-- `true` exactly for record values (the shape of every tester state
snapshot). -/
def isObjV : JSVal → Bool
  | JSVal.obj _ => true
  | _ => false

end JSModel

namespace StateHistoryImpl

open JSModel

/-- `StateHistoryImpl.cloneState`: `JSON.parse(JSON.stringify(state))`.
`JSON.parse` raises when the stringification is omitted (`undefined` at the
top level); tester states are records, so that branch is unreachable and is
defaulted here. -/
def cloneState (state : JSVal) : JSVal :=
  (jsonValue state).getD (JSVal.prim Prim.undef)

/-- `StateHistoryEntry`: `{ state, timestamp, label }`. -/
structure Entry where
  state : JSVal
  timestamp : Nat
  label : Option String

/-- The state of `StateHistoryImpl`: `_states` and `_currentIndex`, read
through the `states` / `currentIndex` getters. -/
structure Hist where
  states : List Entry
  currentIndex : Nat

/-- The constructor: a single entry holding a clone of the initial state,
labelled `"Initial state"`, at cursor 0. -/
def mkHistory (initialState : JSVal) (now : Nat) : Hist :=
  ⟨[⟨cloneState initialState, now, some "Initial state"⟩], 0⟩

/-- `addState`: drop every entry after the cursor
(`this._states.slice(0, this._currentIndex + 1)`), append a clone of the
new state, and move the cursor to the new last index. -/
def addState (h : Hist) (state : JSVal) (now : Nat) (label : Option String) : Hist :=
  let kept := h.states.take (h.currentIndex + 1)
  let newStates := kept ++ [⟨cloneState state, now, label⟩]
  ⟨newStates, newStates.length - 1⟩

/-- `goBack`: decrement the cursor if it is positive. -/
def goBack (h : Hist) : Hist :=
  if 0 < h.currentIndex then ⟨h.states, h.currentIndex - 1⟩ else h

/-- `goForward`: increment the cursor if it is below the last index (in
JavaScript `length - 1` can be `-1` for an empty log; `Nat` subtraction
yields the same guard outcome). -/
def goForward (h : Hist) : Hist :=
  if h.currentIndex < h.states.length - 1 then ⟨h.states, h.currentIndex + 1⟩ else h

/-- `goToIndex`: set the cursor when `0 <= index < length`. -/
def goToIndex (h : Hist) (index : Int) : Hist :=
  if 0 ≤ index ∧ index < h.states.length then ⟨h.states, index.toNat⟩ else h

/-- `reset`: cursor back to 0, entries kept. -/
def reset (h : Hist) : Hist := ⟨h.states, 0⟩

/-- `clear`: keep only the first entry (`[this._states[0]]`), cursor 0. -/
def clear (h : Hist) : Hist := ⟨h.states.take 1, 0⟩

/-- The operations the tester can perform on an existing history log:
`addState` (reached through `setState`, `patchState`, and `callMethod`) and
the five navigation operations. -/
inductive Op where
  | add (state : JSVal) (now : Nat) (label : Option String)
  | back
  | forward
  | goto (index : Int)
  | reset
  | clear

def applyOp (h : Hist) : Op → Hist
  | Op.add s t l => addState h s t l
  | Op.back => goBack h
  | Op.forward => goForward h
  | Op.goto i => goToIndex h i
  | Op.reset => reset h
  | Op.clear => clear h

def runOps (h : Hist) (ops : List Op) : Hist := ops.foldl applyOp h

/-- The cursor invariant: the entry sequence is nonempty and the cursor is a
valid index into it. -/
def Inv (h : Hist) : Prop := h.states ≠ [] ∧ h.currentIndex < h.states.length

end StateHistoryImpl

namespace StoreTester

open JSModel

/-- The condition function `waitForState` builds from a partial-match
record: `Object.entries(condition).every(([key, value]) => state[key] === value)`. -/
def recordCondition (condition : List (String × JSVal)) (state : JSVal) : Bool :=
  condition.all (fun kv => strictEq (jsGet state kv.1) kv.2)

/-- The polling loop body `checkCondition` of `waitForState`, as a function
of elapsed time: check the condition against the current state first; then
reject when the elapsed time has reached the timeout
(`Date.now() - startTime >= timeout`); otherwise re-arm the timer
(`setTimeout(checkCondition, interval)`).  `some t` is resolution at elapsed
time `t`; `none` is rejection.  A positive interval is what guarantees the
loop leaves the deadline behind (the source default is 50). -/
def checkCondition (condFn : JSVal → Bool) (getState : Nat → JSVal)
    (timeout interval : Nat) (hi : 0 < interval) (t : Nat) : Option Nat :=
  if condFn (getState t) then some t
  else if timeout ≤ t then none
  else checkCondition condFn getState timeout interval hi (t + interval)
termination_by timeout - t
decreasing_by omega

/-- JavaScript `a || b` on the optional custom message: the default is used
when the custom message is absent or falsy (the empty string). -/
def jsOrElse (customMessage : Option String) (fallback : String) : String :=
  match customMessage with
  | none => fallback
  | some s => if s = "" then fallback else s

/-- The default rejection message of `waitForState`. -/
def stateTimeoutMessage (timeout : Nat) : String :=
  "Timeout waiting for state condition after " ++ toString timeout ++ "ms"

/-- `SignalStoreTesterImpl.waitForState` over a time-indexed state: options
are destructured with defaults `timeout = 5000`, `interval = 50`; the
promise resolves (`Except.ok` with the resolution time) or rejects with the
custom message if truthy, else the default message. -/
def waitForState (condFn : JSVal → Bool) (getState : Nat → JSVal)
    (timeoutOpt intervalOpt : Option Nat) (timeoutMessage : Option String)
    (hi : 0 < intervalOpt.getD 50) : Except String Nat :=
  match checkCondition condFn getState (timeoutOpt.getD 5000) (intervalOpt.getD 50) hi 0 with
  | some t => Except.ok t
  | none => Except.error (jsOrElse timeoutMessage (stateTimeoutMessage (timeoutOpt.getD 5000)))

/-- `SignalStoreTesterImpl.callMethod`, error path only (the type check on
`name` and the history recording are outside this claim): the method either
returns a value or throws; a thrown error is rethrown as
`` `${this.options.errorMessages.methodCall} "${String(name)}": ${error}` ``.
Thrown errors are modelled by their string rendering (what `${error}`
interpolates). -/
def callMethod (methodCallMessage : String) (name : String)
    (method : List JSVal → Except String JSVal) (args : List JSVal) :
    Except String JSVal :=
  match method args with
  | Except.ok result => Except.ok result
  | Except.error e =>
      Except.error (methodCallMessage ++ " \"" ++ name ++ "\": " ++ e)

end StoreTester

namespace DebounceField

open JSModel

mutual

/-- Abstract model of JavaScript `String(v)` (platform builtin): strings as
themselves, numbers and booleans by their rendering, arrays joined with
commas (with `null`/`undefined` elements rendered empty), records as
`"[object Object]"`.  The claims only exercise the string cases. -/
def jsString : JSVal → String
  | JSVal.prim (Prim.str s) => s
  | JSVal.prim (Prim.num n) => toString n
  | JSVal.prim Prim.nan => "NaN"
  | JSVal.prim (Prim.bool b) => if b then "true" else "false"
  | JSVal.prim Prim.null => "null"
  | JSVal.prim Prim.undef => "undefined"
  | JSVal.date t => dateToISO t
  | JSVal.func _ => "function"
  | JSVal.obj _ => "[object Object]"
  | JSVal.arr l => jsStringList l

def jsStringList : List JSVal → String
  | [] => ""
  | [x] => jsStringElem x
  | x :: y :: xs => jsStringElem x ++ "," ++ jsStringList (y :: xs)

def jsStringElem : JSVal → String
  | JSVal.prim Prim.null => ""
  | JSVal.prim Prim.undef => ""
  | v => jsString v

end

/-- `String(this.field() ?? '')`: `null`/`undefined` become the empty
string before conversion. -/
def displayString (v : JSVal) : String :=
  match v with
  | JSVal.prim Prim.null => ""
  | JSVal.prim Prim.undef => ""
  | v => jsString v

/-- `writeToSignal`: apply the optional transform to the raw string, else
pass the raw string through. -/
def applyTransform (transform : Option (String → JSVal)) (rawValue : String) : JSVal :=
  match transform with
  | some f => f rawValue
  | none => JSVal.prim (Prim.str rawValue)

/-- One debounced emission of the inbound (view → model) channel of
`DebounceFieldDirective`: the `filter` stage drops the emission when
`String(this.field() ?? '') !== newValue` fails — a comparison against the
raw string, before any transform — and otherwise `writeToSignal` writes the
transformed value.  `some v` is a write of `v` to the signal; `none` is no
write. -/
def inboundEmission (transform : Option (String → JSVal)) (fieldVal : JSVal)
    (newValue : String) : Option JSVal :=
  if displayString fieldVal != newValue
  then some (applyTransform transform newValue)
  else none

end DebounceField

namespace AsyncValidator

open JSModel

/-- Outcome of the `rxResource` stream function of `SparkAsyncValidator` for
one debounced, deduplicated source value: whether `config.validate` was
invoked, and the value the stream settles on (`none` models `null`). -/
structure StreamResult (E : Type) where
  invoked : Bool
  emission : Option E

/-- The `stream` body: `''`, `null` and `undefined` short-circuit to
`of(null)` without touching `config.validate`; any other value is passed to
`config.validate`, whose settled outcome is the emission. -/
def validatorStream {E : Type} (validate : JSVal → Option E) (value : JSVal) :
    StreamResult E :=
  if strictEq value (JSVal.prim (Prim.str "")) || strictEq value (JSVal.prim Prim.null)
      || strictEq value (JSVal.prim Prim.undef)
  then ⟨false, none⟩
  else ⟨true, validate value⟩

/-- The `error` signal: `resource.value() ?? null` once the resource has
settled on the stream's emission. -/
def errorSignal {E : Type} (r : StreamResult E) : Option E := r.emission

/-- The short-circuited values: `value === '' || value === null || value === undefined`. -/
def isEmptyValue (value : JSVal) : Bool :=
  strictEq value (JSVal.prim (Prim.str "")) || strictEq value (JSVal.prim Prim.null)
    || strictEq value (JSVal.prim Prim.undef)

end AsyncValidator

namespace HeapModel

open JSModel

/-!
A heap model for the aliasing claims about `FormTracker.reset` and
`deepClone` (packages/forms-x tracker).  JavaScript object identity matters
for those claims (mutating the restored value must not corrupt the
baseline), so values are split into immediate values (`HVal`: primitives and
references) and heap nodes (`HNode`: Date objects, arrays, records) stored
at numeric addresses.  `deepClone` models the tracker's recursive fallback
clone; the native `structuredClone` branch has the same copy semantics for
plain data (a fresh isomorphic graph), so the claims are settled against the
fallback.  Clone recursion is fueled: the source recursion terminates on the
acyclic values the tracker supports, and every theorem carries the fuel it
needs.
-/

/-- Immediate JavaScript values: primitives, or references into the heap. -/
inductive HVal where
  | hprim : Prim → HVal
  | href : Nat → HVal

/-- Heap nodes: Date objects, arrays and records whose components are
immediate values. -/
inductive HNode where
  | hdate : Int → HNode
  | harr : List HVal → HNode
  | hobj : List (String × HVal) → HNode

/-- A heap: allocated nodes by address, plus the next fresh address. -/
structure Heap where
  mem : Nat → Option HNode
  next : Nat

/-- The address of a reference, if any. -/
def refOf : HVal → Option Nat
  | HVal.href a => some a
  | _ => none

/-- The addresses a node points to directly. -/
def HNode.childRefs : HNode → List Nat
  | HNode.hdate _ => []
  | HNode.harr l => l.filterMap refOf
  | HNode.hobj fs => fs.filterMap (fun kv => refOf kv.2)

/-- Allocate a fresh node, returning the extended heap and a reference. -/
def alloc (h : Heap) (n : HNode) : Heap × HVal :=
  (⟨fun a => if a = h.next then some n else h.mem a, h.next + 1⟩, HVal.href h.next)

/-- In-place mutation of an existing object: replace the node stored at an
address (a field assignment, element assignment, or Date set). -/
def hwrite (h : Heap) (a : Nat) (n : HNode) : Heap :=
  ⟨fun b => if b = a then some n else h.mem b, h.next⟩

/-- JavaScript falsiness of an immediate value; object references are
always truthy. -/
def hFalsy : HVal → Bool
  | HVal.hprim p => falsyV (JSVal.prim p)
  | HVal.href _ => false

mutual

/-- Read the plain-data denotation of an immediate value (the value a
structural traversal observes), with fuel bounding the depth. -/
def readV (h : Heap) : Nat → HVal → Option JSVal
  | _ + 1, HVal.hprim p => some (JSVal.prim p)
  | fuel + 1, HVal.href a =>
      match h.mem a with
      | none => none
      | some (HNode.hdate t) => some (JSVal.date t)
      | some (HNode.harr l) =>
          match readVList h fuel l with
          | some js => some (JSVal.arr js)
          | none => none
      | some (HNode.hobj fs) =>
          match readVFields h fuel fs with
          | some jfs => some (JSVal.obj jfs)
          | none => none
  | 0, _ => none

def readVList (h : Heap) : Nat → List HVal → Option (List JSVal)
  | _, [] => some []
  | fuel, x :: xs =>
      match readV h fuel x, readVList h fuel xs with
      | some j, some js => some (j :: js)
      | _, _ => none

def readVFields (h : Heap) : Nat → List (String × HVal) → Option (List (String × JSVal))
  | _, [] => some []
  | fuel, (k, v) :: rest =>
      match readV h fuel v, readVFields h fuel rest with
      | some j, some js => some ((k, j) :: js)
      | _, _ => none

end

mutual

/-- The tracker's `deepClone` fallback on the heap:
```
if (obj === null || typeof obj !== 'object') return obj;
if (obj instanceof Date) return new Date(obj.getTime());
if (Array.isArray(obj)) return obj.map(item => deepClone(item));
const cloned = {}; for (key in obj) cloned[key] = deepClone(obj[key]);
```
Primitives are returned as-is; each visited object allocates a fresh node
holding clones of its components.  (The source allocates a record before
filling it; allocating it after cloning the fields builds the identical
graph.) -/
def deepClone : Heap → Nat → HVal → Option (Heap × HVal)
  | h, _ + 1, HVal.hprim p => some (h, HVal.hprim p)
  | h, fuel + 1, HVal.href a =>
      match h.mem a with
      | none => none
      | some (HNode.hdate t) => some (alloc h (HNode.hdate t))
      | some (HNode.harr l) =>
          match deepCloneList h fuel l with
          | some (h1, l1) => some (alloc h1 (HNode.harr l1))
          | none => none
      | some (HNode.hobj fs) =>
          match deepCloneFields h fuel fs with
          | some (h1, fs1) => some (alloc h1 (HNode.hobj fs1))
          | none => none
  | _, 0, _ => none

def deepCloneList : Heap → Nat → List HVal → Option (Heap × List HVal)
  | h, _, [] => some (h, [])
  | h, fuel, x :: xs =>
      match deepClone h fuel x with
      | some (h1, x1) =>
          match deepCloneList h1 fuel xs with
          | some (h2, xs1) => some (h2, x1 :: xs1)
          | none => none
      | none => none

def deepCloneFields : Heap → Nat → List (String × HVal) → Option (Heap × List (String × HVal))
  | h, _, [] => some (h, [])
  | h, fuel, (k, v) :: rest =>
      match deepClone h fuel v with
      | some (h1, v1) =>
          match deepCloneFields h1 fuel rest with
          | some (h2, rest1) => some (h2, (k, v1) :: rest1)
          | none => none
      | none => none

end

/-- `FormTracker.reset` on the heap: skipped when the baseline is falsy
(`if (base)`); otherwise the source becomes a deep clone of the baseline.
Returns the updated heap and the restored source value. -/
def trackerReset (h : Heap) (baseline : HVal) (fuel : Nat) : Option (Heap × HVal) :=
  if hFalsy baseline then some (h, baseline)
  else deepClone h fuel baseline

/-- Reachability between addresses: from `a`, through stored nodes, to `c`. -/
inductive Reaches (h : Heap) : Nat → Nat → Prop
  | refl (a : Nat) : Reaches h a a
  | step (a b c : Nat) (n : HNode) : h.mem a = some n → b ∈ n.childRefs →
      Reaches h b c → Reaches h a c

/-- The addresses in the object graph of an immediate value. -/
def VReaches (h : Heap) (v : HVal) (c : Nat) : Prop :=
  ∃ a, refOf v = some a ∧ Reaches h a c

/-- Heap well-formedness: every allocated address and every stored
reference lies below `next`. -/
def HeapClosed (h : Heap) : Prop :=
  ∀ a n, h.mem a = some n → a < h.next ∧ ∀ b ∈ n.childRefs, b < h.next

/-- `h2` extends `h`: fresh space only grows, and the contents agree
outside the newly allocated region. -/
def HeapExt (h h2 : Heap) : Prop :=
  h.next ≤ h2.next ∧ ∀ a, a < h.next ∨ h2.next ≤ a → h2.mem a = h.mem a

/-- Every node allocated by an extension points only into the extension's
region. -/
def NewRegion (h h2 : Heap) : Prop :=
  ∀ a n, h.next ≤ a → h2.mem a = some n → ∀ b ∈ n.childRefs, h.next ≤ b ∧ b < h2.next

/-- The result of a clone is a primitive or a freshly allocated reference. -/
def FreshVal (h h2 : Heap) (v : HVal) : Prop :=
  ∀ a, refOf v = some a → h.next ≤ a ∧ a < h2.next

/-- A one-node example heap whose single record is `{ x: NaN }`. -/
def nanHeap : Heap :=
  ⟨fun a => if a = 0 then some (HNode.hobj [("x", HVal.hprim Prim.nan)]) else none, 1⟩

/-- A one-node example heap whose single record is `{ x: 1 }`. -/
def oneHeap : Heap :=
  ⟨fun a => if a = 0 then some (HNode.hobj [("x", HVal.hprim (Prim.num 1))]) else none, 1⟩

end HeapModel

namespace StateHistoryImpl

/-- A history op whose payload (if any) is a record, as every tester state
snapshot is. -/
def OpStateObj : Op → Prop
  | Op.add s _ _ => JSModel.isObjV s = true
  | _ => True

/-- All entries of a log are JSON-clean. -/
def HistClean (h : Hist) : Prop := ∀ e ∈ h.states, JSModel.jsonClean e.state = true

end StateHistoryImpl

-- ===== DEFS-END =====

namespace JSModel

theorem lookupField_of_nodup (fs : List (String × JSVal)) (kv : String × JSVal)
    (hnd : keysNodup (fs.map Prod.fst) = true) (hmem : kv ∈ fs) :
    lookupField fs kv.1 = kv.2 := by
  induction fs with
  | nil => cases hmem
  | cons hd tl ih =>
      simp only [List.map_cons, keysNodup, Bool.and_eq_true, Bool.not_eq_true'] at hnd
      rcases List.mem_cons.mp hmem with h | h
      · subst h
        simp [lookupField]
      · have hne : hd.1 ≠ kv.1 := by
          intro he
          have : (tl.map Prod.fst).contains kv.1 = true := by
            exact List.contains_iff_exists_mem_beq.mpr
              ⟨kv.1, List.mem_map_of_mem Prod.fst h, by simp⟩
          rw [← he] at this
          rw [this] at hnd
          exact absurd hnd.1 (by simp)
        simp only [lookupField, if_neg hne]
        exact ih hnd.2 h

theorem jsKeys_contains_of_mem (fs : List (String × JSVal)) (kv : String × JSVal)
    (hmem : kv ∈ fs) : (jsKeys (JSVal.obj fs)).contains kv.1 = true := by
  simp only [jsKeys]
  exact List.contains_iff_exists_mem_beq.mpr
    ⟨kv.1, List.mem_map_of_mem Prod.fst hmem, by simp⟩

mutual

theorem isEqual_self : ∀ (v : JSVal), wfSnap v = true → noNaN v = true →
    isEqual v v = true
  | JSVal.prim p, _, hn => by
      cases p <;> simp_all [isEqual, strictEq, primEq, noNaN]
  | JSVal.date t, _, _ => by
      simp [isEqual, strictEq, falsyV, objType]
  | JSVal.func i, _, _ => by
      simp [isEqual, strictEq]
  | JSVal.arr l, hw, hn => by
      simp only [isEqual, strictEq, falsyV, objType, Bool.or_self, Bool.not_true,
        Bool.or_false, if_false, bne_self_eq_false]
      simp only [wfSnap] at hw
      simp only [noNaN] at hn
      have := isEqualList_self l hw hn
      simp [this]
  | JSVal.obj fs, hw, hn => by
      simp only [isEqual, strictEq, falsyV, objType, Bool.or_self, Bool.not_true,
        Bool.or_false, if_false, bne_self_eq_false]
      simp only [wfSnap, Bool.and_eq_true] at hw
      simp only [noNaN] at hn
      have := isEqualFields_self fs (JSVal.obj fs) hw.2 hn
        (fun kv hkv => ⟨jsKeys_contains_of_mem fs kv hkv, by
          simp only [jsGet]
          exact lookupField_of_nodup fs kv hw.1 hkv⟩)
      simp [this]

theorem isEqualList_self : ∀ (l : List JSVal), wfSnapList l = true →
    noNaNList l = true → isEqualList l l = true
  | [], _, _ => rfl
  | x :: xs, hw, hn => by
      simp only [wfSnapList, Bool.and_eq_true] at hw
      simp only [noNaNList, Bool.and_eq_true] at hn
      have h1 := isEqual_self x hw.1 hn.1
      have h2 := isEqualList_self xs hw.2 hn.2
      simp [isEqualList, h1, h2]

theorem isEqualFields_self : ∀ (gs : List (String × JSVal)) (b : JSVal),
    wfSnapFields gs = true → noNaNFields gs = true →
    (∀ kv ∈ gs, (jsKeys b).contains kv.1 = true ∧ jsGet b kv.1 = kv.2) →
    isEqualFields gs b = true
  | [], _, _, _, _ => rfl
  | (k, v) :: rest, b, hw, hn, hmem => by
      simp only [wfSnapFields, Bool.and_eq_true] at hw
      simp only [noNaNFields, Bool.and_eq_true] at hn
      have hhd := hmem (k, v) (List.mem_cons_self _ _)
      have h1 := isEqual_self v hw.1 hn.1
      have h2 := isEqualFields_self rest b hw.2 hn.2
        (fun kv hkv => hmem kv (List.mem_cons_of_mem _ hkv))
      simp only [isEqualFields, hhd.1, hhd.2, h1, h2, Bool.and_self]

end

end JSModel

namespace JSModel

theorem wfSnapList_mem {l : List JSVal} {x : JSVal} (hw : wfSnapList l = true)
    (hx : x ∈ l) : wfSnap x = true := by
  induction l with
  | nil => cases hx
  | cons hd tl ih =>
      simp only [wfSnapList, Bool.and_eq_true] at hw
      rcases List.mem_cons.mp hx with h | h
      · exact h ▸ hw.1
      · exact ih hw.2 h

theorem noNaNList_mem {l : List JSVal} {x : JSVal} (hn : noNaNList l = true)
    (hx : x ∈ l) : noNaN x = true := by
  induction l with
  | nil => cases hx
  | cons hd tl ih =>
      simp only [noNaNList, Bool.and_eq_true] at hn
      rcases List.mem_cons.mp hx with h | h
      · exact h ▸ hn.1
      · exact ih hn.2 h

theorem lookupField_wf {fs : List (String × JSVal)} {k : String}
    (hw : wfSnapFields fs = true) : wfSnap (lookupField fs k) = true := by
  induction fs with
  | nil => rfl
  | cons hd tl ih =>
      obtain ⟨k2, v⟩ := hd
      simp only [wfSnapFields, Bool.and_eq_true] at hw
      simp only [lookupField]
      by_cases hk : k2 = k
      · simp [hk, hw.1]
      · simp [hk]
        exact ih hw.2

theorem lookupField_noNaN {fs : List (String × JSVal)} {k : String}
    (hn : noNaNFields fs = true) : noNaN (lookupField fs k) = true := by
  induction fs with
  | nil => rfl
  | cons hd tl ih =>
      obtain ⟨k2, v⟩ := hd
      simp only [noNaNFields, Bool.and_eq_true] at hn
      simp only [lookupField]
      by_cases hk : k2 = k
      · simp [hk, hn.1]
      · simp [hk]
        exact ih hn.2

theorem jsGet_wf (v : JSVal) (k : String) (hw : wfSnap v = true) :
    wfSnap (jsGet v k) = true := by
  match v with
  | JSVal.prim (Prim.str s) =>
      simp only [jsGet]
      split
      · split <;> rfl
      · rfl
  | JSVal.prim (Prim.num n) => rfl
  | JSVal.prim Prim.nan => rfl
  | JSVal.prim (Prim.bool b) => rfl
  | JSVal.prim Prim.null => rfl
  | JSVal.prim Prim.undef => rfl
  | JSVal.date t => rfl
  | JSVal.func i => rfl
  | JSVal.arr l =>
      simp only [jsGet]
      split
      · split
        · next x hg => exact wfSnapList_mem hw (List.get?_mem hg)
        · rfl
      · rfl
  | JSVal.obj fs =>
      simp only [jsGet]
      simp only [wfSnap, Bool.and_eq_true] at hw
      exact lookupField_wf hw.2

theorem jsGet_noNaN (v : JSVal) (k : String) (hn : noNaN v = true) :
    noNaN (jsGet v k) = true := by
  match v with
  | JSVal.prim (Prim.str s) =>
      simp only [jsGet]
      split
      · split <;> rfl
      · rfl
  | JSVal.prim (Prim.num n) => rfl
  | JSVal.prim Prim.nan => rfl
  | JSVal.prim (Prim.bool b) => rfl
  | JSVal.prim Prim.null => rfl
  | JSVal.prim Prim.undef => rfl
  | JSVal.date t => rfl
  | JSVal.func i => rfl
  | JSVal.arr l =>
      simp only [jsGet]
      split
      · split
        · next x hg => exact noNaNList_mem hn (List.get?_mem hg)
        · rfl
      · rfl
  | JSVal.obj fs =>
      simp only [jsGet]
      exact lookupField_noNaN hn

theorem getDiff_self (s : JSVal) (hw : wfSnap s = true) (hn : noNaN s = true) :
    getDiff s s = [] := by
  cases hf : falsyV s with
  | true => simp [getDiff, hf]
  | false =>
      simp only [getDiff, hf, Bool.or_self, Bool.false_eq_true, if_false]
      refine List.filterMap_eq_nil_iff.mpr (fun k _ => ?_)
      have := isEqual_self (jsGet s k) (jsGet_wf s k hw) (jsGet_noNaN s k hn)
      simp [this]

end JSModel

open JSModel in
/-- **C3 counterexample.**  The claim quantifies over every snapshot built
from primitives, nested records, arrays and dates.  `NaN` is a number
primitive, and `NaN === NaN` is false in JavaScript, so `isEqual` is not
reflexive at `NaN` and `diff` is not empty on a record with a `NaN` field:
`isEqual(NaN, NaN)` returns false, and `diff(s, s)` for `s = { x: NaN }`
returns `{ x: NaN }`, not `{}`. -/
theorem C3_counterexample :
    isEqual (JSVal.prim Prim.nan) (JSVal.prim Prim.nan) = false ∧
    getDiff (JSVal.obj [("x", JSVal.prim Prim.nan)])
        (JSVal.obj [("x", JSVal.prim Prim.nan)]) = [("x", JSVal.prim Prim.nan)] :=
  ⟨rfl, rfl⟩

open JSModel in
/-- **C3 (amended).**  For every snapshot `s` (well-formed: record keys are
unique, as in every actual JavaScript record) that contains no `NaN`,
`isEqual(s, s)` returns true and `diff(s, s)` is the empty record. -/
theorem C3_isEqual_getDiff_reflexive (s : JSVal) (hw : wfSnap s = true)
    (hn : noNaN s = true) : isEqual s s = true ∧ getDiff s s = [] :=
  ⟨isEqual_self s hw hn, getDiff_self s hw hn⟩

open JSModel in
/-- Witness for C3 at the nested snapshot
`{ a: [1, Date(7)], b: "hi", c: { d: null } }`. -/
theorem C3_witness :
    (wfSnap (JSVal.obj [("a", JSVal.arr [JSVal.prim (Prim.num 1), JSVal.date 7]),
        ("b", JSVal.prim (Prim.str "hi")),
        ("c", JSVal.obj [("d", JSVal.prim Prim.null)])]) = true ∧
     noNaN (JSVal.obj [("a", JSVal.arr [JSVal.prim (Prim.num 1), JSVal.date 7]),
        ("b", JSVal.prim (Prim.str "hi")),
        ("c", JSVal.obj [("d", JSVal.prim Prim.null)])]) = true) ∧
    (isEqual (JSVal.obj [("a", JSVal.arr [JSVal.prim (Prim.num 1), JSVal.date 7]),
        ("b", JSVal.prim (Prim.str "hi")),
        ("c", JSVal.obj [("d", JSVal.prim Prim.null)])])
      (JSVal.obj [("a", JSVal.arr [JSVal.prim (Prim.num 1), JSVal.date 7]),
        ("b", JSVal.prim (Prim.str "hi")),
        ("c", JSVal.obj [("d", JSVal.prim Prim.null)])]) = true ∧
     getDiff (JSVal.obj [("a", JSVal.arr [JSVal.prim (Prim.num 1), JSVal.date 7]),
        ("b", JSVal.prim (Prim.str "hi")),
        ("c", JSVal.obj [("d", JSVal.prim Prim.null)])])
      (JSVal.obj [("a", JSVal.arr [JSVal.prim (Prim.num 1), JSVal.date 7]),
        ("b", JSVal.prim (Prim.str "hi")),
        ("c", JSVal.obj [("d", JSVal.prim Prim.null)])]) = []) :=
  ⟨⟨rfl, rfl⟩, C3_isEqual_getDiff_reflexive _ rfl rfl⟩

namespace JSModel

theorem getDiff_obj_eq (b : JSVal) (fs : List (String × JSVal))
    (hnd : keysNodup (fs.map Prod.fst) = true) (hb : falsyV b = false) :
    getDiff b (JSVal.obj fs) =
      fs.filter (fun kv => !(isEqual (jsGet b kv.1) kv.2)) := by
  have hfc : falsyV (JSVal.obj fs) = false := rfl
  simp only [getDiff, hb, hfc, Bool.or_self, Bool.false_eq_true, if_false]
  induction fs with
  | nil => rfl
  | cons hd tl ih =>
      obtain ⟨k, v⟩ := hd
      simp only [List.map_cons, keysNodup, Bool.and_eq_true, Bool.not_eq_true'] at hnd
      have hlk : jsGet (JSVal.obj ((k, v) :: tl)) k = v := by
        simp [jsGet, lookupField]
      have htl : ∀ k2 ∈ tl.map Prod.fst,
          jsGet (JSVal.obj ((k, v) :: tl)) k2 = jsGet (JSVal.obj tl) k2 := by
        intro k2 hk2
        have hne : k ≠ k2 := by
          intro he
          subst he
          have : (tl.map Prod.fst).contains k = true :=
            List.contains_iff_exists_mem_beq.mpr ⟨k, hk2, by simp⟩
          rw [this] at hnd
          exact absurd hnd.1 (by simp)
        simp [jsGet, lookupField, hne]
      simp only [jsKeys, List.map_cons, List.filterMap_cons, hlk, List.filter_cons]
      have hcongr : (tl.map Prod.fst).filterMap (fun k2 =>
            if isEqual (jsGet b k2) (jsGet (JSVal.obj ((k, v) :: tl)) k2) then none
            else some (k2, jsGet (JSVal.obj ((k, v) :: tl)) k2)) =
          (tl.map Prod.fst).filterMap (fun k2 =>
            if isEqual (jsGet b k2) (jsGet (JSVal.obj tl) k2) then none
            else some (k2, jsGet (JSVal.obj tl) k2)) := by
        apply List.filterMap_congr
        intro k2 hk2
        rw [htl k2 hk2]
      simp only [jsKeys] at ih
      cases he : isEqual (jsGet b k) v with
      | true =>
          simp only [he, Bool.not_true]
          simp only [if_true, Bool.false_eq_true, if_false]
          rw [hcongr]
          exact ih hnd.2 rfl
      | false =>
          simp only [he, Bool.not_false]
          simp only [Bool.false_eq_true, if_false, if_true]
          rw [hcongr]
          rw [ih hnd.2 rfl]

end JSModel

open JSModel in
/-- **C4 counterexample.**  With baseline `b = { x: 1 }` and current
`c = {}` (a top-level key removed), `b` and `c` differ at the top-level key
`"x"` (`b.x = 1` is not `isEqual` to `c.x = undefined`) and `c` is not
`isEqual` to `b`, yet `dirtyFields()` returns the empty record: `getDiff`
iterates only the keys of `current`, so keys present only in the baseline
are never reported. -/
theorem C4_counterexample :
    isEqual (JSVal.obj []) (JSVal.obj [("x", JSVal.prim (Prim.num 1))]) = false ∧
    isEqual (jsGet (JSVal.obj [("x", JSVal.prim (Prim.num 1))]) "x")
        (jsGet (JSVal.obj []) "x") = false ∧
    dirtyFields (JSVal.obj [("x", JSVal.prim (Prim.num 1))]) (JSVal.obj []) = [] :=
  ⟨rfl, rfl, rfl⟩

open JSModel in
/-- **C4 (amended).**  For every baseline `b` (truthy, as a record baseline
always is) and current record `c` with unique keys and `c` not `isEqual` to
`b`, `dirtyFields()` returns the record of exactly the top-level keys **of
`c`** at which `b[k]` and `c[k]` differ (not `isEqual`), each mapped to
`c[k]`, and no other keys.  (Keys present only in `b` are not reported.) -/
theorem C4_dirtyFields_exact (b : JSVal) (fs : List (String × JSVal))
    (hnd : keysNodup (fs.map Prod.fst) = true) (hb : falsyV b = false)
    (_hdirty : isEqual (JSVal.obj fs) b = false) :
    dirtyFields b (JSVal.obj fs) =
      fs.filter (fun kv => !(isEqual (jsGet b kv.1) kv.2)) ∧
    ∀ kv, kv ∈ dirtyFields b (JSVal.obj fs) ↔
      kv ∈ fs ∧ isEqual (jsGet b kv.1) kv.2 = false := by
  have heq := getDiff_obj_eq b fs hnd hb
  refine ⟨heq, fun kv => ?_⟩
  simp only [dirtyFields] at heq ⊢
  rw [heq, List.mem_filter]
  simp [Bool.not_eq_true']

open JSModel in
/-- Witness for C4: baseline `{ x: 1, y: "a" }`, current `{ x: 2, y: "a" }`;
the dirty fields are exactly `{ x: 2 }`. -/
theorem C4_witness :
    (keysNodup ([("x", JSVal.prim (Prim.num 2)),
        ("y", JSVal.prim (Prim.str "a"))].map Prod.fst) = true ∧
     falsyV (JSVal.obj [("x", JSVal.prim (Prim.num 1)),
        ("y", JSVal.prim (Prim.str "a"))]) = false ∧
     isEqual (JSVal.obj [("x", JSVal.prim (Prim.num 2)), ("y", JSVal.prim (Prim.str "a"))])
        (JSVal.obj [("x", JSVal.prim (Prim.num 1)), ("y", JSVal.prim (Prim.str "a"))]) = false) ∧
    (dirtyFields (JSVal.obj [("x", JSVal.prim (Prim.num 1)), ("y", JSVal.prim (Prim.str "a"))])
        (JSVal.obj [("x", JSVal.prim (Prim.num 2)), ("y", JSVal.prim (Prim.str "a"))]) =
      [("x", JSVal.prim (Prim.num 2)), ("y", JSVal.prim (Prim.str "a"))].filter
        (fun kv => !(isEqual (jsGet (JSVal.obj [("x", JSVal.prim (Prim.num 1)),
            ("y", JSVal.prim (Prim.str "a"))]) kv.1) kv.2)) ∧
     ∀ kv, kv ∈ dirtyFields (JSVal.obj [("x", JSVal.prim (Prim.num 1)),
            ("y", JSVal.prim (Prim.str "a"))])
          (JSVal.obj [("x", JSVal.prim (Prim.num 2)), ("y", JSVal.prim (Prim.str "a"))]) ↔
        kv ∈ [("x", JSVal.prim (Prim.num 2)), ("y", JSVal.prim (Prim.str "a"))] ∧
          isEqual (jsGet (JSVal.obj [("x", JSVal.prim (Prim.num 1)),
            ("y", JSVal.prim (Prim.str "a"))]) kv.1) kv.2 = false) :=
  ⟨⟨rfl, rfl, rfl⟩, C4_dirtyFields_exact _ _ rfl rfl rfl⟩

namespace SignalArray

theorem removeAt_enumFrom {α : Type} (l : List α) (x : α) :
    ∀ n : Nat, (((l ++ [x]).enumFrom n).filter
        (fun p => p.1 != n + l.length)).map Prod.snd = l := by
  induction l with
  | nil =>
      intro n
      have : (n != n + 0) = false := by simp
      simp [this]
  | cons a as ih =>
      intro n
      simp only [List.cons_append, List.enumFrom_cons, List.filter_cons]
      have hkeep : (n != n + (a :: as).length) = true := by
        simp only [List.length_cons, bne_iff_ne, ne_eq]
        omega
      simp only [hkeep, if_true, List.map_cons]
      have harith : n + (a :: as).length = (n + 1) + as.length := by
        simp only [List.length_cons]
        omega
      rw [harith]
      rw [ih (n + 1)]

/-- `push(x)` followed by `removeAt` at the original length recovers the
original sequence. -/
theorem removeAt_push {α : Type} (l : List α) (x : α) :
    removeAt l.length (push [x] l) = l := by
  simp only [push, removeAt, List.enum]
  have := removeAt_enumFrom l x 0
  simpa using this

end SignalArray

open JSModel SignalArray in
/-- **C9 counterexample.**  For `s = [NaN]`, `push(0)` then `removeAt(1)`
yields `[NaN]` again, but `isEqual([NaN], [NaN])` is false (`NaN === NaN`
is false in JavaScript), so the result is not `isEqual` to the original. -/
theorem C9_counterexample :
    removeAt ([JSVal.prim Prim.nan] : List JSVal).length
        (push [JSVal.prim (Prim.num 0)] [JSVal.prim Prim.nan]) = [JSVal.prim Prim.nan] ∧
    isEqual (JSVal.arr [JSVal.prim Prim.nan]) (JSVal.arr [JSVal.prim Prim.nan]) = false :=
  ⟨rfl, rfl⟩

open JSModel SignalArray in
/-- **C9 (amended).**  For every wrapped sequence `s` whose elements are
well-formed and contain no `NaN`, and every element `x`: `push(x)` followed
by `removeAt(i)` at the index of the last element (the original length of
`s`) yields a sequence `isEqual` to `s`. -/
theorem C9_push_removeAt (s : List JSVal) (x : JSVal)
    (hw : wfSnapList s = true) (hn : noNaNList s = true) :
    isEqual (JSVal.arr (removeAt s.length (push [x] s))) (JSVal.arr s) = true := by
  rw [removeAt_push]
  exact isEqual_self (JSVal.arr s) hw hn

open JSModel SignalArray in
/-- Witness for C9 at `s = [{ a: 1 }, "q"]`, `x = Date(3)`. -/
theorem C9_witness :
    (wfSnapList [JSVal.obj [("a", JSVal.prim (Prim.num 1))], JSVal.prim (Prim.str "q")] = true ∧
     noNaNList [JSVal.obj [("a", JSVal.prim (Prim.num 1))], JSVal.prim (Prim.str "q")] = true) ∧
    isEqual (JSVal.arr (removeAt
        ([JSVal.obj [("a", JSVal.prim (Prim.num 1))], JSVal.prim (Prim.str "q")] : List JSVal).length
        (push [JSVal.date 3] [JSVal.obj [("a", JSVal.prim (Prim.num 1))], JSVal.prim (Prim.str "q")])))
      (JSVal.arr [JSVal.obj [("a", JSVal.prim (Prim.num 1))], JSVal.prim (Prim.str "q")]) = true :=
  ⟨⟨rfl, rfl⟩, C9_push_removeAt _ (JSVal.date 3) rfl rfl⟩

namespace StateHistoryImpl

theorem mkHistory_inv (s0 : JSVal) (t0 : Nat) : Inv (mkHistory s0 t0) :=
  ⟨by simp [mkHistory], by simp [mkHistory]⟩

theorem applyOp_inv (h : Hist) (op : Op) (hinv : Inv h) : Inv (applyOp h op) := by
  obtain ⟨hne, hlt⟩ := hinv
  have hpos : 0 < h.states.length := List.length_pos.mpr hne
  cases op with
  | add s t l =>
      constructor
      · simp [applyOp, addState]
      · simp only [applyOp, addState, List.length_append, List.length_singleton]
        omega
  | back =>
      simp only [applyOp, goBack]
      split
      · exact ⟨hne, by dsimp only; omega⟩
      · exact ⟨hne, hlt⟩
  | forward =>
      simp only [applyOp, goForward]
      split
      · next hcond => exact ⟨hne, by dsimp only; omega⟩
      · exact ⟨hne, hlt⟩
  | goto i =>
      simp only [applyOp, goToIndex]
      split
      · next hcond => exact ⟨hne, by dsimp only; omega⟩
      · exact ⟨hne, hlt⟩
  | reset => exact ⟨hne, hpos⟩
  | clear =>
      constructor
      · show h.states.take 1 ≠ []
        intro hcontra
        have hlen : (h.states.take 1).length = 0 := by rw [hcontra]; rfl
        rw [List.length_take] at hlen
        omega
      · show 0 < (h.states.take 1).length
        rw [List.length_take]
        omega

theorem runOps_inv (h : Hist) (ops : List Op) (hinv : Inv h) :
    Inv (runOps h ops) := by
  induction ops generalizing h with
  | nil => exact hinv
  | cons op rest ih => exact ih (applyOp h op) (applyOp_inv h op hinv)

end StateHistoryImpl

open StateHistoryImpl in
/-- **C1.**  For the history log of the store tester: after any sequence of
operations (construction, `addState` — reached via `setState`, `patchState`
and `callMethod` —, `goBack`, `goForward`, `goToIndex`, `reset`, `clear`),
the entry sequence is nonempty and the cursor is a valid index into it; and
`addState` first truncates every entry after the cursor
(`slice(0, currentIndex + 1)`) before appending the new entry. -/
theorem C1_history_cursor_invariant :
    (∀ (s0 : JSVal) (t0 : Nat) (ops : List Op),
        Inv (runOps (mkHistory s0 t0) ops)) ∧
    (∀ (h : Hist) (s : JSVal) (t : Nat) (l : Option String),
        (addState h s t l).states =
          h.states.take (h.currentIndex + 1) ++ [Entry.mk (cloneState s) t l] ∧
        (addState h s t l).currentIndex =
          (h.states.take (h.currentIndex + 1) ++ [Entry.mk (cloneState s) t l]).length - 1) := by
  constructor
  · exact fun s0 t0 ops => runOps_inv _ ops (mkHistory_inv s0 t0)
  · intro h s t l
    exact ⟨rfl, rfl⟩

namespace JSModel

mutual

theorem jsonClean_jsonValue : ∀ (v j : JSVal), jsonValue v = some j →
    jsonClean j = true
  | JSVal.prim (Prim.str s), _, h => by cases h; rfl
  | JSVal.prim (Prim.num n), _, h => by cases h; rfl
  | JSVal.prim (Prim.bool b), _, h => by cases h; rfl
  | JSVal.prim Prim.null, _, h => by cases h; rfl
  | JSVal.prim Prim.nan, _, h => by cases h; rfl
  | JSVal.prim Prim.undef, _, h => by cases h
  | JSVal.func i, _, h => by cases h
  | JSVal.date t, _, h => by cases h; rfl
  | JSVal.arr l, _, h => by
      cases h
      show jsonCleanList (jsonList l) = true
      exact jsonCleanList_jsonList l
  | JSVal.obj fs, _, h => by
      cases h
      show jsonCleanFields (jsonFields fs) = true
      exact jsonCleanFields_jsonFields fs

theorem jsonCleanList_jsonList : ∀ (l : List JSVal),
    jsonCleanList (jsonList l) = true
  | [] => rfl
  | x :: xs => by
      simp only [jsonList, jsonCleanList, Bool.and_eq_true]
      constructor
      · cases hx : jsonValue x with
        | none => rfl
        | some j =>
            simp only [hx, Option.getD_some]
            exact jsonClean_jsonValue x j hx
      · exact jsonCleanList_jsonList xs

theorem jsonCleanFields_jsonFields : ∀ (fs : List (String × JSVal)),
    jsonCleanFields (jsonFields fs) = true
  | [] => rfl
  | (k, v) :: rest => by
      simp only [jsonFields]
      cases hv : jsonValue v with
      | none => exact jsonCleanFields_jsonFields rest
      | some j =>
          simp only [jsonCleanFields, Bool.and_eq_true]
          exact ⟨jsonClean_jsonValue v j hv, jsonCleanFields_jsonFields rest⟩

end

end JSModel

namespace StateHistoryImpl

open JSModel

theorem cloneState_obj_clean (s : JSVal) (hs : isObjV s = true) :
    jsonClean (cloneState s) = true := by
  match s with
  | JSVal.obj fs =>
      show jsonClean ((jsonValue (JSVal.obj fs)).getD (JSVal.prim Prim.undef)) = true
      simp only [jsonValue, Option.getD_some]
      exact jsonCleanFields_jsonFields fs

theorem mkHistory_clean (s0 : JSVal) (t0 : Nat) (hs : isObjV s0 = true) :
    HistClean (mkHistory s0 t0) := by
  intro e he
  simp only [mkHistory, List.mem_singleton] at he
  subst he
  exact cloneState_obj_clean s0 hs

theorem applyOp_clean (h : Hist) (op : Op) (hc : HistClean h)
    (hop : OpStateObj op) : HistClean (applyOp h op) := by
  cases op with
  | add s t l =>
      intro e he
      simp only [applyOp, addState, List.mem_append, List.mem_singleton] at he
      rcases he with he | he
      · exact hc e (List.mem_of_mem_take he)
      · subst he
        exact cloneState_obj_clean s hop
  | back =>
      intro e he
      simp only [applyOp, goBack] at he
      split at he <;> exact hc e he
  | forward =>
      intro e he
      simp only [applyOp, goForward] at he
      split at he <;> exact hc e he
  | goto i =>
      intro e he
      simp only [applyOp, goToIndex] at he
      split at he <;> exact hc e he
  | reset =>
      intro e he
      exact hc e he
  | clear =>
      intro e he
      exact hc e (List.mem_of_mem_take he)

theorem runOps_clean (h : Hist) (ops : List Op) (hc : HistClean h)
    (hops : ∀ op ∈ ops, OpStateObj op) : HistClean (runOps h ops) := by
  induction ops generalizing h with
  | nil => exact hc
  | cons op rest ih =>
      exact ih (applyOp h op)
        (applyOp_clean h op hc (hops op (List.mem_cons_self _ _)))
        (fun o ho => hops o (List.mem_cons_of_mem _ ho))

theorem addState_preserves_entries (h : Hist) (s : JSVal) (t : Nat)
    (l : Option String) (idx : Nat) (h1 : idx ≤ h.currentIndex)
    (h2 : idx < h.states.length) :
    (addState h s t l).states.get? idx = h.states.get? idx := by
  show (h.states.take (h.currentIndex + 1) ++ [Entry.mk (cloneState s) t l]).get? idx =
    h.states.get? idx
  rw [List.get?_append, List.get?_take]
  · omega
  · rw [List.length_take]
    omega

theorem applyOp_entry_provenance (h : Hist) (op : Op) (e : Entry)
    (he : e ∈ (applyOp h op).states) :
    e ∈ h.states ∨ ∃ s t l, op = Op.add s t l ∧ e = Entry.mk (cloneState s) t l := by
  cases op with
  | add s t l =>
      simp only [applyOp, addState, List.mem_append, List.mem_singleton] at he
      rcases he with he | he
      · exact Or.inl (List.mem_of_mem_take he)
      · exact Or.inr ⟨s, t, l, rfl, he⟩
  | back =>
      simp only [applyOp, goBack] at he
      split at he <;> exact Or.inl he
  | forward =>
      simp only [applyOp, goForward] at he
      split at he <;> exact Or.inl he
  | goto i =>
      simp only [applyOp, goToIndex] at he
      split at he <;> exact Or.inl he
  | reset => exact Or.inl he
  | clear => exact Or.inl (List.mem_of_mem_take he)

end StateHistoryImpl

open StateHistoryImpl JSModel in
/-- **C10.**  Every history entry is appended as a JSON round-trip deep copy
of the state at append time: the appended entry holds `cloneState state`
(= `JSON.parse(JSON.stringify(state))`); later operations never modify a
retained entry (an `addState` leaves every entry up to the cursor untouched,
and every entry of any operation's result is either an old entry or the
freshly appended clone); and for record states the stored entry states
contain no Date objects, no `undefined`-valued fields, and no functions
(dates are converted to strings; omitted values are dropped from records). -/
theorem C10_history_entries_are_json_clones :
    (∀ (s0 : JSVal) (t0 : Nat) (ops : List Op), isObjV s0 = true →
        (∀ op ∈ ops, OpStateObj op) →
        ∀ e ∈ (runOps (mkHistory s0 t0) ops).states, jsonClean e.state = true) ∧
    (∀ (h : Hist) (s : JSVal) (t : Nat) (l : Option String),
        (addState h s t l).states.getLast? = some (Entry.mk (cloneState s) t l)) ∧
    (∀ (h : Hist) (s : JSVal) (t : Nat) (l : Option String) (idx : Nat),
        idx ≤ h.currentIndex → idx < h.states.length →
        (addState h s t l).states.get? idx = h.states.get? idx) ∧
    (∀ (h : Hist) (op : Op) (e : Entry), e ∈ (applyOp h op).states →
        e ∈ h.states ∨ ∃ s t l, op = Op.add s t l ∧ e = Entry.mk (cloneState s) t l) ∧
    (∀ fs, cloneState (JSVal.obj fs) = JSVal.obj (jsonFields fs)) ∧
    (∀ t : Int, jsonValue (JSVal.date t) = some (JSVal.prim (Prim.str (dateToISO t)))) := by
  refine ⟨?_, ?_, ?_, ?_, ?_, ?_⟩
  · exact fun s0 t0 ops hs hops =>
      runOps_clean _ ops (mkHistory_clean s0 t0 hs) hops
  · intro h s t l
    show (h.states.take (h.currentIndex + 1) ++ [Entry.mk (cloneState s) t l]).getLast? = _
    exact List.getLast?_concat _
  · exact addState_preserves_entries
  · exact applyOp_entry_provenance
  · intro fs
    rfl
  · intro t
    rfl

open StateHistoryImpl JSModel in
/-- Witness for C10: recording starts on the record state
`{ d: Date(3), u: undefined }`; the initial entry's stored state is
JSON-clean (`{ d: "...", }` with the `undefined` field dropped). -/
theorem C10_witness :
    (isObjV (JSVal.obj [("d", JSVal.date 3), ("u", JSVal.prim Prim.undef)]) = true) ∧
    jsonClean (Entry.mk (cloneState (JSVal.obj [("d", JSVal.date 3),
        ("u", JSVal.prim Prim.undef)])) 7 (some "Initial state")).state = true :=
  ⟨rfl, C10_history_entries_are_json_clones.1
    (JSVal.obj [("d", JSVal.date 3), ("u", JSVal.prim Prim.undef)]) 7 [] rfl
    (fun _ ho => absurd ho (List.not_mem_nil _))
    (Entry.mk (cloneState (JSVal.obj [("d", JSVal.date 3), ("u", JSVal.prim Prim.undef)])) 7
      (some "Initial state"))
    (List.mem_singleton.mpr rfl)⟩

namespace StoreTester

theorem checkCondition_immediate (c : JSVal → Bool) (g : Nat → JSVal)
    (tmo itv : Nat) (hi : 0 < itv) (t : Nat) (hc : c (g t) = true) :
    checkCondition c g tmo itv hi t = some t := by
  rw [checkCondition]
  simp [hc]

theorem checkCondition_some_spec (c : JSVal → Bool) (g : Nat → JSVal)
    (tmo itv : Nat) (hi : 0 < itv) :
    ∀ (n t u : Nat), tmo - t ≤ n → checkCondition c g tmo itv hi t = some u →
      c (g u) = true ∧ ∃ k, u = t + k * itv ∧
        ∀ m < k, c (g (t + m * itv)) = false ∧ t + m * itv < tmo := by
  intro n
  induction n with
  | zero =>
      intro t u hle h
      rw [checkCondition] at h
      by_cases hc : c (g t) = true
      · simp only [hc, if_true, Option.some.injEq] at h
        subst h
        exact ⟨hc, 0, by simp, by omega⟩
      · have hto : tmo ≤ t := by omega
        simp only [hc, Bool.false_eq_true, if_false, hto, if_true] at h
        cases h
  | succ n ih =>
      intro t u hle h
      rw [checkCondition] at h
      by_cases hc : c (g t) = true
      · simp only [hc, if_true, Option.some.injEq] at h
        subst h
        exact ⟨hc, 0, by simp, by omega⟩
      · simp only [hc, Bool.false_eq_true, if_false] at h
        by_cases hto : tmo ≤ t
        · simp only [hto, if_true] at h
          cases h
        · simp only [hto, if_false] at h
          obtain ⟨hcu, k, hk, hmins⟩ := ih (t + itv) u (by omega) h
          refine ⟨hcu, k + 1, ?_, ?_⟩
          · rw [hk, Nat.succ_mul]
            omega
          · intro m hm
            match m with
            | 0 =>
                simp only [Nat.zero_mul, Nat.add_zero]
                exact ⟨by simpa using hc, by omega⟩
            | m' + 1 =>
                have harith : t + (m' + 1) * itv = (t + itv) + m' * itv := by
                  rw [Nat.succ_mul]
                  omega
                rw [harith]
                exact hmins m' (by omega)

theorem checkCondition_none_spec (c : JSVal → Bool) (g : Nat → JSVal)
    (tmo itv : Nat) (hi : 0 < itv) :
    ∀ (n t : Nat), tmo - t ≤ n → checkCondition c g tmo itv hi t = none →
      ∃ k, tmo ≤ t + k * itv ∧ c (g (t + k * itv)) = false ∧
        ∀ m < k, c (g (t + m * itv)) = false ∧ t + m * itv < tmo := by
  intro n
  induction n with
  | zero =>
      intro t hle h
      by_cases hc : c (g t) = true
      · rw [checkCondition_immediate c g tmo itv hi t hc] at h
        cases h
      · refine ⟨0, by omega, by simpa using hc, by omega⟩
  | succ n ih =>
      intro t hle h
      by_cases hc : c (g t) = true
      · rw [checkCondition_immediate c g tmo itv hi t hc] at h
        cases h
      · by_cases hto : tmo ≤ t
        · refine ⟨0, by omega, by simpa using hc, by omega⟩
        · rw [checkCondition] at h
          simp only [hc, Bool.false_eq_true, if_false, hto, if_true] at h
          obtain ⟨k, hk1, hk2, hmins⟩ := ih (t + itv) (by omega) h
          refine ⟨k + 1, ?_, ?_, ?_⟩
          · rw [Nat.succ_mul]
            omega
          · have harith : t + (k + 1) * itv = (t + itv) + k * itv := by
              rw [Nat.succ_mul]
              omega
            rw [harith]
            exact hk2
          · intro m hm
            match m with
            | 0 =>
                simp only [Nat.zero_mul, Nat.add_zero]
                exact ⟨by simpa using hc, by omega⟩
            | m' + 1 =>
                have harith : t + (m' + 1) * itv = (t + itv) + m' * itv := by
                  rw [Nat.succ_mul]
                  omega
                rw [harith]
                exact hmins m' (by omega)

end StoreTester

open StoreTester JSModel in
/-- **C2 counterexample.**  A supplied-but-empty custom `timeoutMessage` is
not used: the rejection carries the default message, because the source
computes `timeoutMessage || defaultMessage` and the empty string is falsy.
(Here the condition is never true and the timeout is 0, so the first poll
rejects.) -/
theorem C2_counterexample :
    waitForState (fun _ => false) (fun _ => JSVal.obj []) (some 0) (some 50) (some "")
        (by decide) =
      Except.error "Timeout waiting for state condition after 0ms" ∧
    (Except.error "Timeout waiting for state condition after 0ms" :
        Except String Nat) ≠ Except.error "" := by
  constructor
  · simp only [waitForState, Option.getD_some]
    rw [checkCondition]
    simp only [jsOrElse, stateTimeoutMessage]
    norm_num
    rfl
  · simp

open StoreTester JSModel in
/-- **C2 (amended).**  `waitForState(condition, options)` checks the
condition immediately (a poll at elapsed time 0); when it resolves it
resolves at the first poll (spaced `interval` apart, default 50) at which
the condition holds, every earlier poll having failed before the deadline;
when it rejects, the rejection happens at the first poll whose elapsed time
has reached `timeout` (default 5000), all polls having failed, and the error
carries the custom `timeoutMessage` when supplied **and nonempty** (an empty
custom message falls back to the default); no poll is made after resolution
or rejection (the settling poll is the last one examined).  A partial-match
record condition holds exactly when every listed field equals the
corresponding current state field by `===`. -/
theorem C2_waitForState_polling :
    (∀ (c : JSVal → Bool) (g : Nat → JSVal) (tmo itv : Option Nat)
        (msg : Option String) (hi : 0 < itv.getD 50), c (g 0) = true →
        waitForState c g tmo itv msg hi = Except.ok 0) ∧
    (∀ (c : JSVal → Bool) (g : Nat → JSVal) (tmo itv : Option Nat)
        (msg : Option String) (hi : 0 < itv.getD 50) (u : Nat),
        waitForState c g tmo itv msg hi = Except.ok u →
        c (g u) = true ∧ ∃ k, u = k * itv.getD 50 ∧
          ∀ m < k, c (g (m * itv.getD 50)) = false ∧ m * itv.getD 50 < tmo.getD 5000) ∧
    (∀ (c : JSVal → Bool) (g : Nat → JSVal) (tmo itv : Option Nat)
        (msg : Option String) (hi : 0 < itv.getD 50) (e : String),
        waitForState c g tmo itv msg hi = Except.error e →
        e = jsOrElse msg (stateTimeoutMessage (tmo.getD 5000)) ∧
        ∃ k, tmo.getD 5000 ≤ k * itv.getD 50 ∧ c (g (k * itv.getD 50)) = false ∧
          ∀ m < k, c (g (m * itv.getD 50)) = false ∧ m * itv.getD 50 < tmo.getD 5000) ∧
    (∀ (m fb : String), m ≠ "" → jsOrElse (some m) fb = m) ∧
    (∀ (c : JSVal → Bool) (g : Nat → JSVal) (msg : Option String)
        (hi : 0 < (none : Option Nat).getD 50) (hi2 : 0 < (some 50 : Option Nat).getD 50),
        waitForState c g none none msg hi = waitForState c g (some 5000) (some 50) msg hi2) ∧
    (∀ (cond : List (String × JSVal)) (state : JSVal),
        recordCondition cond state = true ↔
          ∀ kv ∈ cond, strictEq (jsGet state kv.1) kv.2 = true) := by
  refine ⟨?_, ?_, ?_, ?_, ?_, ?_⟩
  · intro c g tmo itv msg hi hc
    simp only [waitForState]
    rw [checkCondition_immediate c g (tmo.getD 5000) (itv.getD 50) hi 0 hc]
  · intro c g tmo itv msg hi u h
    simp only [waitForState] at h
    cases hcc : checkCondition c g (tmo.getD 5000) (itv.getD 50) hi 0 with
    | none => rw [hcc] at h; cases h
    | some t =>
        rw [hcc] at h
        simp only [Except.ok.injEq] at h
        subst h
        obtain ⟨hcu, k, hk, hmins⟩ :=
          checkCondition_some_spec c g (tmo.getD 5000) (itv.getD 50) hi
            (tmo.getD 5000) 0 t (by omega) hcc
        refine ⟨hcu, k, by omega, ?_⟩
        intro m hm
        have := hmins m hm
        simpa using this
  · intro c g tmo itv msg hi e h
    simp only [waitForState] at h
    cases hcc : checkCondition c g (tmo.getD 5000) (itv.getD 50) hi 0 with
    | some t => rw [hcc] at h; cases h
    | none =>
        rw [hcc] at h
        simp only [Except.error.injEq] at h
        obtain ⟨k, hk1, hk2, hmins⟩ :=
          checkCondition_none_spec c g (tmo.getD 5000) (itv.getD 50) hi
            (tmo.getD 5000) 0 (by omega) hcc
        refine ⟨h.symm, k, by omega, by simpa using hk2, ?_⟩
        intro m hm
        have := hmins m hm
        simpa using this
  · intro m fb hm
    simp [jsOrElse, hm]
  · intro c g msg hi hi2
    rfl
  · intro cond state
    simp [recordCondition, List.all_eq_true]

open StoreTester JSModel in
/-- Witness for C2: a condition already true at elapsed time 0 resolves
immediately with the default options. -/
theorem C2_witness :
    ((fun _ : JSVal => true) ((fun _ : Nat => JSVal.obj []) 0) = true) ∧
    waitForState (fun _ => true) (fun _ => JSVal.obj []) none none none (by decide) =
      Except.ok 0 :=
  ⟨rfl, C2_waitForState_polling.1 (fun _ => true) (fun _ => JSVal.obj []) none none none
    (by decide) rfl⟩

open DebounceField JSModel in
/-- **C5 counterexample.**  Configure the transform `r ↦ r ++ "x"`, let the
cell hold `"a"`, and let the debounced raw input be `"a"`.  The computed
(post-transform) value `"ax"` differs from the cell's current value `"a"`,
yet no write occurs: the directive's filter compares the **raw** string
against `String(field() ?? '')` before the transform is applied, so the
claim's "written iff the computed value differs" is false. -/
theorem C5_counterexample :
    inboundEmission (some (fun r => JSVal.prim (Prim.str (r ++ "x"))))
        (JSVal.prim (Prim.str "a")) "a" = none ∧
    applyTransform (some (fun r => JSVal.prim (Prim.str (r ++ "x")))) "a" ≠
      JSVal.prim (Prim.str "a") := by
  constructor
  · simp [inboundEmission, displayString, jsString]
  · simp only [applyTransform]
    intro h
    simp only [JSVal.prim.injEq, Prim.str.injEq] at h
    exact absurd h (by decide)

open DebounceField JSModel in
/-- **C5 (amended).**  After the debounce window elapses for an input event,
the raw string is compared with `String(field() ?? '')`: when they differ,
the transform (if configured) is applied to the raw string and the result is
written to the cell unconditionally (even when it equals the cell's current
value); when the raw string equals the displayed rendering of the current
value, no write occurs (even when the transformed value would differ). -/
theorem C5_inbound_write_filter (transform : Option (String → JSVal))
    (fieldVal : JSVal) (raw : String) :
    (displayString fieldVal ≠ raw →
        inboundEmission transform fieldVal raw = some (applyTransform transform raw)) ∧
    (displayString fieldVal = raw → inboundEmission transform fieldVal raw = none) := by
  constructor
  · intro h
    simp [inboundEmission, bne_iff_ne, h]
  · intro h
    simp [inboundEmission, h]

open DebounceField JSModel in
/-- Witness for C5: with no transform, cell value `"a"`, raw input `"b"`,
the emission writes `"b"`; with raw input `"a"`, no write occurs. -/
theorem C5_witness :
    (displayString (JSVal.prim (Prim.str "a")) ≠ "b" ∧
     inboundEmission none (JSVal.prim (Prim.str "a")) "b" =
       some (applyTransform none "b")) ∧
    (displayString (JSVal.prim (Prim.str "a")) = "a" ∧
     inboundEmission none (JSVal.prim (Prim.str "a")) "a" = none) :=
  ⟨⟨by simp [displayString, jsString], (C5_inbound_write_filter none _ "b").1
      (by simp [displayString, jsString])⟩,
   ⟨by simp [displayString, jsString], (C5_inbound_write_filter none _ "a").2
      (by simp [displayString, jsString])⟩⟩

open AsyncValidator JSModel in
/-- **C6.**  Whenever the debounced, deduplicated source value of the async
validator is the empty string, `null`, or `undefined`, the user-supplied
validate function is not invoked and the validator's `error` signal yields
`null`. -/
theorem C6_async_validator_short_circuit {E : Type} (validate : JSVal → Option E)
    (value : JSVal) (h : isEmptyValue value = true) :
    (validatorStream validate value).invoked = false ∧
    errorSignal (validatorStream validate value) = none := by
  simp only [isEmptyValue] at h
  simp [validatorStream, errorSignal, h]

open AsyncValidator JSModel in
/-- Witness for C6 at `value = null` with a validate function that would
report an error if it ran. -/
theorem C6_witness :
    isEmptyValue (JSVal.prim Prim.null) = true ∧
    ((validatorStream (fun _ => some "taken") (JSVal.prim Prim.null)).invoked = false ∧
     errorSignal (validatorStream (fun _ => some "taken") (JSVal.prim Prim.null)) = none) :=
  ⟨rfl, C6_async_validator_short_circuit (fun _ => some "taken") (JSVal.prim Prim.null) rfl⟩

open StoreTester in
/-- **C7.**  For every method bound on the wrapped store and every argument
list: if the invoked method returns normally, `callMethod` returns its
return value unchanged; if it throws, `callMethod` rethrows an error whose
message is exactly `prefix ++ " \"" ++ name ++ "\": " ++ error` and hence
contains the configurable prefix, the method name, and the original error's
rendering as substrings. -/
theorem C7_callMethod_wraps_errors (methodCallMessage name : String)
    (method : List JSVal → Except String JSVal) (args : List JSVal) :
    (∀ v, method args = Except.ok v →
        callMethod methodCallMessage name method args = Except.ok v) ∧
    (∀ e, method args = Except.error e →
        callMethod methodCallMessage name method args =
          Except.error (methodCallMessage ++ " \"" ++ name ++ "\": " ++ e) ∧
        (∃ q, methodCallMessage ++ " \"" ++ name ++ "\": " ++ e =
            methodCallMessage ++ q) ∧
        (∃ p q, methodCallMessage ++ " \"" ++ name ++ "\": " ++ e =
            p ++ name ++ q) ∧
        (∃ p, methodCallMessage ++ " \"" ++ name ++ "\": " ++ e = p ++ e)) := by
  constructor
  · intro v hv
    simp [callMethod, hv]
  · intro e he
    refine ⟨by simp [callMethod, he], ?_, ?_, ?_⟩
    · exact ⟨" \"" ++ name ++ "\": " ++ e, by simp [String.append_assoc]⟩
    · exact ⟨methodCallMessage ++ " \"", "\": " ++ e, by simp [String.append_assoc]⟩
    · exact ⟨methodCallMessage ++ " \"" ++ name ++ "\": ", rfl⟩

open StoreTester in
/-- Witness for C7: a method that throws `boom` is rethrown wrapped; a
method that returns 7 has its value passed through. -/
theorem C7_witness :
    ((fun _ : List JSVal => (Except.error "boom" : Except String JSVal)) [] =
        Except.error "boom" ∧
     (callMethod "Error calling method" "increment"
          (fun _ => Except.error "boom") [] =
        Except.error ("Error calling method" ++ " \"" ++ "increment" ++ "\": " ++ "boom") ∧
      (∃ q, "Error calling method" ++ " \"" ++ "increment" ++ "\": " ++ "boom" =
          "Error calling method" ++ q) ∧
      (∃ p q, "Error calling method" ++ " \"" ++ "increment" ++ "\": " ++ "boom" =
          p ++ "increment" ++ q) ∧
      (∃ p, "Error calling method" ++ " \"" ++ "increment" ++ "\": " ++ "boom" =
          p ++ "boom"))) ∧
    callMethod "Error calling method" "getCount"
        (fun _ => Except.ok (JSVal.prim (Prim.num 7))) [] =
      Except.ok (JSVal.prim (Prim.num 7)) :=
  ⟨⟨rfl, (C7_callMethod_wraps_errors "Error calling method" "increment"
      (fun _ => Except.error "boom") []).2 "boom" rfl⟩,
   (C7_callMethod_wraps_errors "Error calling method" "getCount"
      (fun _ => Except.ok (JSVal.prim (Prim.num 7))) []).1 (JSVal.prim (Prim.num 7)) rfl⟩

namespace HeapModel

theorem Reaches_lt (h : Heap) (hc : HeapClosed h) {a c : Nat}
    (hr : Reaches h a c) (ha : a < h.next) : c < h.next := by
  induction hr with
  | refl a0 => exact ha
  | step a0 b c0 n hmem hchild hr ih =>
      exact ih ((hc a0 n hmem).2 b hchild)

theorem Reaches_ext (h h2 : Heap) (hc : HeapClosed h) (he : HeapExt h h2)
    {a c : Nat} (hr : Reaches h2 a c) (ha : a < h.next) : Reaches h a c := by
  induction hr with
  | refl a0 => exact Reaches.refl a0
  | step a0 b c0 n hmem hchild hr ih =>
      have hmem0 : h.mem a0 = some n := by
        rw [← he.2 a0 (Or.inl ha)]
        exact hmem
      have hb : b < h.next := (hc a0 n hmem0).2 b hchild
      exact Reaches.step a0 b c0 n hmem0 hchild (ih hb)

theorem Reaches_mono (h h2 : Heap) (hc : HeapClosed h) (he : HeapExt h h2)
    {a c : Nat} (hr : Reaches h a c) : Reaches h2 a c := by
  induction hr with
  | refl a0 => exact Reaches.refl a0
  | step a0 b c0 n hmem hchild hr ih =>
      have ha0 : a0 < h.next := (hc a0 n hmem).1
      have hmem2 : h2.mem a0 = some n := by
        rw [he.2 a0 (Or.inl ha0)]
        exact hmem
      exact Reaches.step a0 b c0 n hmem2 hchild ih

theorem Reaches_fresh_lower (h h2 : Heap) (hn : NewRegion h h2)
    {a c : Nat} (hr : Reaches h2 a c) (ha : h.next ≤ a) : h.next ≤ c := by
  induction hr with
  | refl a0 => exact ha
  | step a0 b c0 n hmem hchild hr ih =>
      exact ih (hn a0 n ha hmem b hchild).1

theorem HeapExt.refl (h : Heap) : HeapExt h h :=
  ⟨Nat.le_refl _, fun _ _ => rfl⟩

theorem HeapExt.trans {h1 h2 h3 : Heap} (hab : HeapExt h1 h2) (hbc : HeapExt h2 h3) :
    HeapExt h1 h3 := by
  obtain ⟨hle1, hagree1⟩ := hab
  obtain ⟨hle2, hagree2⟩ := hbc
  refine ⟨Nat.le_trans hle1 hle2, fun x hx => ?_⟩
  rcases hx with hx | hx
  · rw [hagree2 x (Or.inl (by omega)), hagree1 x (Or.inl hx)]
  · rw [hagree2 x (Or.inr hx), hagree1 x (Or.inr (by omega))]

theorem HeapClosed_of_ext (h h2 : Heap) (hc : HeapClosed h) (he : HeapExt h h2)
    (hn : NewRegion h h2) : HeapClosed h2 := by
  obtain ⟨hle, hagree⟩ := he
  intro a n hmem
  by_cases ha : a < h.next
  · have hmem0 : h.mem a = some n := by rw [← hagree a (Or.inl ha)]; exact hmem
    have := hc a n hmem0
    exact ⟨by omega, fun b hb => by have := this.2 b hb; omega⟩
  · have ha2 : a < h2.next := by
      by_contra hcon
      have heq : h2.mem a = h.mem a := hagree a (Or.inr (by omega))
      rw [heq] at hmem
      have := (hc a n hmem).1
      omega
    refine ⟨ha2, fun b hb => ?_⟩
    exact (hn a n (by omega) hmem b hb).2

theorem HeapClosed_hwrite (h : Heap) (a : Nat) (n : HNode) (hc : HeapClosed h)
    (ha : a < h.next) (hn : ∀ b ∈ n.childRefs, b < h.next) :
    HeapClosed (hwrite h a n) := by
  intro x m hmem
  show x < h.next ∧ ∀ b ∈ m.childRefs, b < h.next
  simp only [hwrite] at hmem
  by_cases hx : x = a
  · subst hx
    simp only [if_true] at hmem
    cases hmem
    exact ⟨ha, hn⟩
  · simp only [hx, if_false] at hmem
    exact hc x m hmem

end HeapModel

namespace HeapModel

theorem readV_ext (h h2 : Heap) (hc : HeapClosed h) (he : HeapExt h h2) :
    ∀ f : Nat,
      (∀ v : HVal, (∀ a0, refOf v = some a0 → a0 < h.next) →
        readV h2 f v = readV h f v) ∧
      (∀ l : List HVal, (∀ x ∈ l, ∀ a0, refOf x = some a0 → a0 < h.next) →
        readVList h2 f l = readVList h f l) ∧
      (∀ fs : List (String × HVal), (∀ kv ∈ fs, ∀ a0, refOf kv.2 = some a0 → a0 < h.next) →
        readVFields h2 f fs = readVFields h f fs) := by
  intro f
  induction f with
  | zero =>
      refine ⟨fun v _ => by simp [readV], ?_, ?_⟩
      · intro l _
        induction l with
        | nil => simp [readVList]
        | cons x xs ih => simp [readVList, readV, ih]
      · intro fs _
        induction fs with
        | nil => simp [readVFields]
        | cons kv rest ih =>
            obtain ⟨k, v⟩ := kv
            simp [readVFields, readV, ih]
  | succ f ih =>
      obtain ⟨_, ihl, ihf⟩ := ih
      have hval : ∀ v : HVal, (∀ a0, refOf v = some a0 → a0 < h.next) →
          readV h2 (f + 1) v = readV h (f + 1) v := by
        intro v hv
        match v with
        | HVal.hprim p => simp [readV]
        | HVal.href a =>
            have ha : a < h.next := hv a rfl
            have hmem : h2.mem a = h.mem a := he.2 a (Or.inl ha)
            cases hm : h.mem a with
            | none => simp [readV, hmem, hm]
            | some n =>
                cases n with
                | hdate t => simp [readV, hmem, hm]
                | harr l =>
                    have hcl := (hc a (HNode.harr l) hm).2
                    have hl : ∀ x ∈ l, ∀ a0, refOf x = some a0 → a0 < h.next := by
                      intro x hx a0 hr0
                      exact hcl a0 (List.mem_filterMap.mpr ⟨x, hx, hr0⟩)
                    simp only [readV, hmem, hm]
                    rw [ihl l hl]
                | hobj fs =>
                    have hcl := (hc a (HNode.hobj fs) hm).2
                    have hfs : ∀ kv ∈ fs, ∀ a0, refOf kv.2 = some a0 → a0 < h.next := by
                      intro kv hkv a0 hr0
                      exact hcl a0 (List.mem_filterMap.mpr ⟨kv, hkv, hr0⟩)
                    simp only [readV, hmem, hm]
                    rw [ihf fs hfs]
      refine ⟨hval, ?_, ?_⟩
      · intro l hl
        induction l with
        | nil => simp [readVList]
        | cons x xs ihx =>
            simp only [readVList]
            rw [hval x (hl x (List.mem_cons_self _ _)),
              ihx (fun y hy => hl y (List.mem_cons_of_mem _ hy))]
      · intro fs hfs
        induction fs with
        | nil => simp [readVFields]
        | cons kv rest ihx =>
            obtain ⟨k, v⟩ := kv
            simp only [readVFields]
            rw [hval v (hfs (k, v) (List.mem_cons_self _ _)),
              ihx (fun y hy => hfs y (List.mem_cons_of_mem _ hy))]

end HeapModel

namespace HeapModel

theorem readV_write (h : Heap) (a : Nat) (n : HNode) :
    ∀ f : Nat,
      (∀ v : HVal, (∀ a0, refOf v = some a0 → ¬ Reaches h a0 a) →
        readV (hwrite h a n) f v = readV h f v) ∧
      (∀ l : List HVal, (∀ x ∈ l, ∀ a0, refOf x = some a0 → ¬ Reaches h a0 a) →
        readVList (hwrite h a n) f l = readVList h f l) ∧
      (∀ fs : List (String × HVal),
        (∀ kv ∈ fs, ∀ a0, refOf kv.2 = some a0 → ¬ Reaches h a0 a) →
        readVFields (hwrite h a n) f fs = readVFields h f fs) := by
  intro f
  induction f with
  | zero =>
      refine ⟨fun v _ => by simp [readV], ?_, ?_⟩
      · intro l _
        induction l with
        | nil => simp [readVList]
        | cons x xs ih => simp [readVList, readV, ih]
      · intro fs _
        induction fs with
        | nil => simp [readVFields]
        | cons kv rest ih =>
            obtain ⟨k, v⟩ := kv
            simp [readVFields, readV, ih]
  | succ f ih =>
      obtain ⟨_, ihl, ihf⟩ := ih
      have hval : ∀ v : HVal, (∀ a0, refOf v = some a0 → ¬ Reaches h a0 a) →
          readV (hwrite h a n) (f + 1) v = readV h (f + 1) v := by
        intro v hv
        match v with
        | HVal.hprim p => simp [readV]
        | HVal.href b =>
            have hnr : ¬ Reaches h b a := hv b rfl
            have hba : b ≠ a := by
              intro hcon
              exact hnr (hcon ▸ Reaches.refl b)
            have hmem : (hwrite h a n).mem b = h.mem b := by
              simp [hwrite, hba]
            cases hm : h.mem b with
            | none => simp [readV, hmem, hm]
            | some m =>
                have hchild : ∀ a0 ∈ m.childRefs, ¬ Reaches h a0 a := by
                  intro a0 ha0 hr0
                  exact hnr (Reaches.step b a0 a m hm ha0 hr0)
                cases m with
                | hdate t => simp [readV, hmem, hm]
                | harr l =>
                    have hl : ∀ x ∈ l, ∀ a0, refOf x = some a0 → ¬ Reaches h a0 a := by
                      intro x hx a0 hr0
                      exact hchild a0 (List.mem_filterMap.mpr ⟨x, hx, hr0⟩)
                    simp only [readV, hmem, hm]
                    rw [ihl l hl]
                | hobj fs =>
                    have hfs : ∀ kv ∈ fs, ∀ a0, refOf kv.2 = some a0 → ¬ Reaches h a0 a := by
                      intro kv hkv a0 hr0
                      exact hchild a0 (List.mem_filterMap.mpr ⟨kv, hkv, hr0⟩)
                    simp only [readV, hmem, hm]
                    rw [ihf fs hfs]
      refine ⟨hval, ?_, ?_⟩
      · intro l hl
        induction l with
        | nil => simp [readVList]
        | cons x xs ihx =>
            simp only [readVList]
            rw [hval x (hl x (List.mem_cons_self _ _)),
              ihx (fun y hy => hl y (List.mem_cons_of_mem _ hy))]
      · intro fs hfs
        induction fs with
        | nil => simp [readVFields]
        | cons kv rest ihx =>
            obtain ⟨k, v⟩ := kv
            simp only [readVFields]
            rw [hval v (hfs (k, v) (List.mem_cons_self _ _)),
              ihx (fun y hy => hfs y (List.mem_cons_of_mem _ hy))]

end HeapModel

namespace HeapModel

theorem alloc_ext (h : Heap) (n : HNode) : HeapExt h (alloc h n).1 := by
  refine ⟨by simp [alloc], fun a ha => ?_⟩
  have hne : a ≠ h.next := by
    rcases ha with ha | ha
    · omega
    · simp only [alloc] at ha
      omega
  simp [alloc, hne]

theorem NewRegion_self (h : Heap) (hc : HeapClosed h) : NewRegion h h := by
  intro a n ha hmem
  have := (hc a n hmem).1
  omega

theorem NewRegion_trans (h h1 h2 : Heap) (he1 : HeapExt h h1) (he2 : HeapExt h1 h2)
    (hn1 : NewRegion h h1) (hn2 : NewRegion h1 h2) :
    NewRegion h h2 := by
  intro a n ha hmem b hb
  by_cases h1a : a < h1.next
  · have hmem1 : h1.mem a = some n := by
      rw [← he2.2 a (Or.inl h1a)]
      exact hmem
    have := hn1 a n ha hmem1 b hb
    have hle := he2.1
    exact ⟨this.1, by omega⟩
  · have := hn2 a n (by omega) hmem b hb
    have hle := he1.1
    exact ⟨by omega, this.2⟩

theorem NewRegion_alloc (h h1 : Heap) (n1 : HNode)
    (hn : NewRegion h h1) (hc1 : HeapClosed h1)
    (hrefs : ∀ b ∈ n1.childRefs, h.next ≤ b ∧ b < h1.next) :
    NewRegion h (alloc h1 n1).1 := by
  intro a m ha hmem
  simp only [alloc] at hmem ⊢
  by_cases hae : a = h1.next
  · subst hae
    simp only [if_true] at hmem
    cases hmem
    intro b hb
    have := hrefs b hb
    exact ⟨this.1, by omega⟩
  · simp only [hae, if_false] at hmem
    by_cases h1a : a < h1.next
    · intro b hb
      have := hn a m ha hmem b hb
      exact ⟨this.1, by omega⟩
    · have := (hc1 a m hmem).1
      omega

theorem readV_some_bound (h : Heap) (hc : HeapClosed h) (f : Nat) (v : HVal)
    (j : JSVal) (hr : readV h f v = some j) :
    ∀ a0, refOf v = some a0 → a0 < h.next := by
  intro a0 hv
  match v, hv with
  | HVal.href a, hv =>
      cases hv
      match f with
      | 0 => simp [readV] at hr
      | g + 1 =>
          cases hm : h.mem a0 with
          | none => simp [readV, hm] at hr
          | some n => exact (hc a0 n hm).1

theorem readVList_some_inv (h : Heap) (f : Nat) (x : HVal) (xs : List HVal)
    (js : List JSVal) (hr : readVList h f (x :: xs) = some js) :
    ∃ jx jxs, readV h f x = some jx ∧ readVList h f xs = some jxs ∧ js = jx :: jxs := by
  simp only [readVList] at hr
  cases hx : readV h f x with
  | none => rw [hx] at hr; cases hr
  | some jx =>
      cases hxs : readVList h f xs with
      | none => rw [hx, hxs] at hr; cases hr
      | some jxs =>
          rw [hx, hxs] at hr
          simp only [Option.some.injEq] at hr
          exact ⟨jx, jxs, rfl, rfl, hr.symm⟩

theorem readVFields_some_inv (h : Heap) (f : Nat) (k : String) (v : HVal)
    (rest : List (String × HVal)) (js : List (String × JSVal))
    (hr : readVFields h f ((k, v) :: rest) = some js) :
    ∃ jv jrest, readV h f v = some jv ∧ readVFields h f rest = some jrest ∧
      js = (k, jv) :: jrest := by
  simp only [readVFields] at hr
  cases hx : readV h f v with
  | none => rw [hx] at hr; cases hr
  | some jv =>
      cases hxs : readVFields h f rest with
      | none => rw [hx, hxs] at hr; cases hr
      | some jrest =>
          rw [hx, hxs] at hr
          simp only [Option.some.injEq] at hr
          exact ⟨jv, jrest, rfl, rfl, hr.symm⟩

theorem readVList_elem_bound (h : Heap) (hc : HeapClosed h) (f : Nat) :
    ∀ (l : List HVal) (js : List JSVal), readVList h f l = some js →
      ∀ x ∈ l, ∀ a0, refOf x = some a0 → a0 < h.next := by
  intro l
  induction l with
  | nil => intro js _ x hx; cases hx
  | cons y ys ih =>
      intro js hr x hx
      obtain ⟨jx, jxs, hy, hys, _⟩ := readVList_some_inv h f y ys js hr
      rcases List.mem_cons.mp hx with hx | hx
      · subst hx
        exact readV_some_bound h hc f x jx hy
      · exact ih jxs hys x hx

theorem readVFields_elem_bound (h : Heap) (hc : HeapClosed h) (f : Nat) :
    ∀ (fs : List (String × HVal)) (js : List (String × JSVal)),
      readVFields h f fs = some js →
      ∀ kv ∈ fs, ∀ a0, refOf kv.2 = some a0 → a0 < h.next := by
  intro fs
  induction fs with
  | nil => intro js _ kv hkv; cases hkv
  | cons y ys ih =>
      intro js hr kv hkv
      obtain ⟨k, v⟩ := y
      obtain ⟨jv, jrest, hv, hrest, _⟩ := readVFields_some_inv h f k v ys js hr
      rcases List.mem_cons.mp hkv with hkv | hkv
      · subst hkv
        exact readV_some_bound h hc f v jv hv
      · exact ih jrest hrest kv hkv

end HeapModel

namespace HeapModel

/-- The central specification of `deepClone`: whenever the baseline value
reads back as a plain-data denotation, the clone succeeds, only allocates
fresh addresses (the original heap region is untouched and the cloned graph
lives entirely in the fresh region), and the clone reads back as the same
denotation. -/
theorem deepClone_spec :
    ∀ f : Nat,
      (∀ (v : HVal) (h : Heap) (j : JSVal), HeapClosed h →
        readV h f v = some j →
        ∃ h2 v2, deepClone h f v = some (h2, v2) ∧ HeapExt h h2 ∧
          NewRegion h h2 ∧ FreshVal h h2 v2 ∧ readV h2 f v2 = some j) ∧
      (∀ (l : List HVal) (h : Heap) (js : List JSVal), HeapClosed h →
        readVList h f l = some js →
        ∃ h2 l2, deepCloneList h f l = some (h2, l2) ∧ HeapExt h h2 ∧
          NewRegion h h2 ∧ (∀ x ∈ l2, FreshVal h h2 x) ∧
          readVList h2 f l2 = some js) ∧
      (∀ (fs : List (String × HVal)) (h : Heap) (js : List (String × JSVal)),
        HeapClosed h → readVFields h f fs = some js →
        ∃ h2 fs2, deepCloneFields h f fs = some (h2, fs2) ∧ HeapExt h h2 ∧
          NewRegion h h2 ∧ (∀ kv ∈ fs2, FreshVal h h2 kv.2) ∧
          readVFields h2 f fs2 = some js) := by
  intro f
  induction f with
  | zero =>
      refine ⟨?_, ?_, ?_⟩
      · intro v h j _ hr
        exfalso
        cases v <;> simp [readV] at hr
      · intro l h js hc hr
        cases l with
        | nil =>
            have hjs : js = [] := by
              simp only [readVList, Option.some.injEq] at hr
              exact hr.symm
            subst hjs
            exact ⟨h, [], by simp [deepCloneList], HeapExt.refl h,
              NewRegion_self h hc, fun x hx => absurd hx (List.not_mem_nil _),
              by simp [readVList]⟩
        | cons x xs =>
            exfalso
            obtain ⟨jx, _, hx, _, _⟩ := readVList_some_inv h 0 x xs js hr
            cases x <;> simp [readV] at hx
      · intro fs h js hc hr
        cases fs with
        | nil =>
            have hjs : js = [] := by
              simp only [readVFields, Option.some.injEq] at hr
              exact hr.symm
            subst hjs
            exact ⟨h, [], by simp [deepCloneFields], HeapExt.refl h,
              NewRegion_self h hc, fun kv hkv => absurd hkv (List.not_mem_nil _),
              by simp [readVFields]⟩
        | cons kv rest =>
            exfalso
            obtain ⟨k, v⟩ := kv
            obtain ⟨jv, _, hv, _, _⟩ := readVFields_some_inv h 0 k v rest js hr
            cases v <;> simp [readV] at hv
  | succ g ih =>
      obtain ⟨_, ihl, ihf⟩ := ih
      have hval : ∀ (v : HVal) (h : Heap) (j : JSVal), HeapClosed h →
          readV h (g + 1) v = some j →
          ∃ h2 v2, deepClone h (g + 1) v = some (h2, v2) ∧ HeapExt h h2 ∧
            NewRegion h h2 ∧ FreshVal h h2 v2 ∧ readV h2 (g + 1) v2 = some j := by
        intro v h j hc hr
        match v with
        | HVal.hprim p =>
            have hj : j = JSVal.prim p := by
              simp only [readV, Option.some.injEq] at hr
              exact hr.symm
            subst hj
            refine ⟨h, HVal.hprim p, by simp [deepClone], HeapExt.refl h,
              NewRegion_self h hc, ?_, by simp [readV]⟩
            intro a0 h0
            simp [refOf] at h0
        | HVal.href a =>
            cases hm : h.mem a with
            | none => simp [readV, hm] at hr
            | some n =>
                cases n with
                | hdate t =>
                    have hj : j = JSVal.date t := by
                      simp only [readV, hm, Option.some.injEq] at hr
                      exact hr.symm
                    subst hj
                    refine ⟨(alloc h (HNode.hdate t)).1, (alloc h (HNode.hdate t)).2,
                      by simp [deepClone, hm], alloc_ext h _, ?_, ?_, ?_⟩
                    · exact NewRegion_alloc h h (HNode.hdate t) (NewRegion_self h hc) hc
                        (fun b hb => absurd hb (List.not_mem_nil _))
                    · intro a0 h0
                      simp only [alloc, refOf, Option.some.injEq] at h0
                      subst h0
                      simp [alloc]
                    · simp [readV, alloc]
                | harr l =>
                    have hr2 : readVList h g l = some (match j with
                        | JSVal.arr js => js | _ => []) ∧ ∃ js, j = JSVal.arr js := by
                      simp only [readV, hm] at hr
                      cases hrl : readVList h g l with
                      | none => rw [hrl] at hr; cases hr
                      | some js =>
                          rw [hrl] at hr
                          simp only [Option.some.injEq] at hr
                          subst hr
                          exact ⟨rfl, js, rfl⟩
                    obtain ⟨hrl, js, hj⟩ := hr2
                    subst hj
                    simp only at hrl
                    obtain ⟨h1, l1, hclone, hext, hnrc, hfresh, hread⟩ :=
                      ihl l h js hc hrl
                    have hc1 : HeapClosed h1 := HeapClosed_of_ext h h1 hc hext hnrc
                    have hrefs : ∀ b ∈ (HNode.harr l1).childRefs,
                        h.next ≤ b ∧ b < h1.next := by
                      intro b hb
                      obtain ⟨x, hx, hxr⟩ := List.mem_filterMap.mp hb
                      exact hfresh x hx b hxr
                    refine ⟨(alloc h1 (HNode.harr l1)).1, (alloc h1 (HNode.harr l1)).2,
                      by simp [deepClone, hm, hclone], HeapExt.trans hext (alloc_ext h1 _),
                      NewRegion_alloc h h1 (HNode.harr l1) hnrc hc1 hrefs, ?_, ?_⟩
                    · intro a0 h0
                      simp only [alloc, refOf, Option.some.injEq] at h0
                      subst h0
                      have := hext.1
                      simp only [alloc]
                      omega
                    · have hrw : readVList (alloc h1 (HNode.harr l1)).1 g l1 =
                          readVList h1 g l1 := by
                        exact (readV_ext h1 (alloc h1 (HNode.harr l1)).1 hc1
                          (alloc_ext h1 _) g).2.1 l1
                          (fun x hx a0 h0 => (hfresh x hx a0 h0).2)
                      have hmem2 : (alloc h1 (HNode.harr l1)).1.mem h1.next =
                          some (HNode.harr l1) := by simp [alloc]
                      have hsnd : (alloc h1 (HNode.harr l1)).2 = HVal.href h1.next := rfl
                      rw [hsnd]
                      simp only [readV, hmem2, hrw, hread]
                | hobj fs =>
                    have hr2 : readVFields h g fs = some (match j with
                        | JSVal.obj js => js | _ => []) ∧ ∃ js, j = JSVal.obj js := by
                      simp only [readV, hm] at hr
                      cases hrl : readVFields h g fs with
                      | none => rw [hrl] at hr; cases hr
                      | some js =>
                          rw [hrl] at hr
                          simp only [Option.some.injEq] at hr
                          subst hr
                          exact ⟨rfl, js, rfl⟩
                    obtain ⟨hrl, js, hj⟩ := hr2
                    subst hj
                    simp only at hrl
                    obtain ⟨h1, fs1, hclone, hext, hnrc, hfresh, hread⟩ :=
                      ihf fs h js hc hrl
                    have hc1 : HeapClosed h1 := HeapClosed_of_ext h h1 hc hext hnrc
                    have hrefs : ∀ b ∈ (HNode.hobj fs1).childRefs,
                        h.next ≤ b ∧ b < h1.next := by
                      intro b hb
                      obtain ⟨kv, hkv, hkr⟩ := List.mem_filterMap.mp hb
                      exact hfresh kv hkv b hkr
                    refine ⟨(alloc h1 (HNode.hobj fs1)).1, (alloc h1 (HNode.hobj fs1)).2,
                      by simp [deepClone, hm, hclone], HeapExt.trans hext (alloc_ext h1 _),
                      NewRegion_alloc h h1 (HNode.hobj fs1) hnrc hc1 hrefs, ?_, ?_⟩
                    · intro a0 h0
                      simp only [alloc, refOf, Option.some.injEq] at h0
                      subst h0
                      have := hext.1
                      simp only [alloc]
                      omega
                    · have hrw : readVFields (alloc h1 (HNode.hobj fs1)).1 g fs1 =
                          readVFields h1 g fs1 := by
                        exact (readV_ext h1 (alloc h1 (HNode.hobj fs1)).1 hc1
                          (alloc_ext h1 _) g).2.2 fs1
                          (fun kv hkv a0 h0 => (hfresh kv hkv a0 h0).2)
                      have hmem2 : (alloc h1 (HNode.hobj fs1)).1.mem h1.next =
                          some (HNode.hobj fs1) := by simp [alloc]
                      have hsnd : (alloc h1 (HNode.hobj fs1)).2 = HVal.href h1.next := rfl
                      rw [hsnd]
                      simp only [readV, hmem2, hrw, hread]
      refine ⟨hval, ?_, ?_⟩
      · intro l
        induction l with
        | nil =>
            intro h js hc hr
            have hjs : js = [] := by
              simp only [readVList, Option.some.injEq] at hr
              exact hr.symm
            subst hjs
            exact ⟨h, [], by simp [deepCloneList], HeapExt.refl h,
              NewRegion_self h hc, fun x hx => absurd hx (List.not_mem_nil _),
              by simp [readVList]⟩
        | cons x xs ihx =>
            intro h js hc hr
            obtain ⟨jx, jxs, hx, hxs, hjs⟩ := readVList_some_inv h (g + 1) x xs js hr
            subst hjs
            obtain ⟨h1, x1, hclx, hextx, hnrcx, hfreshx, hreadx⟩ := hval x h jx hc hx
            have hc1 : HeapClosed h1 := HeapClosed_of_ext h h1 hc hextx hnrcx
            have hxs1 : readVList h1 (g + 1) xs = some jxs := by
              rw [(readV_ext h h1 hc hextx (g + 1)).2.1 xs
                (readVList_elem_bound h hc (g + 1) xs jxs hxs)]
              exact hxs
            obtain ⟨h2, xs1, hclxs, hextxs, hnrcxs, hfreshxs, hreadxs⟩ :=
              ihx h1 jxs hc1 hxs1
            have hc2 : HeapClosed h2 := HeapClosed_of_ext h1 h2 hc1 hextxs hnrcxs
            refine ⟨h2, x1 :: xs1, by simp [deepCloneList, hclx, hclxs],
              HeapExt.trans hextx hextxs,
              NewRegion_trans h h1 h2 hextx hextxs hnrcx hnrcxs, ?_, ?_⟩
            · intro y hy
              rcases List.mem_cons.mp hy with hy | hy
              · subst hy
                intro a0 h0
                have := hfreshx a0 h0
                have hle := hextxs.1
                exact ⟨this.1, by omega⟩
              · intro a0 h0
                have := hfreshxs y hy a0 h0
                have hle := hextx.1
                exact ⟨by omega, this.2⟩
            · have hx1 : readV h2 (g + 1) x1 = some jx := by
                rw [(readV_ext h1 h2 hc1 hextxs (g + 1)).1 x1
                  (fun a0 h0 => (hfreshx a0 h0).2)]
                exact hreadx
              simp [readVList, hx1, hreadxs]
      · intro fs
        induction fs with
        | nil =>
            intro h js hc hr
            have hjs : js = [] := by
              simp only [readVFields, Option.some.injEq] at hr
              exact hr.symm
            subst hjs
            exact ⟨h, [], by simp [deepCloneFields], HeapExt.refl h,
              NewRegion_self h hc, fun kv hkv => absurd hkv (List.not_mem_nil _),
              by simp [readVFields]⟩
        | cons kv rest ihx =>
            intro h js hc hr
            obtain ⟨k, v⟩ := kv
            obtain ⟨jv, jrest, hv, hrest, hjs⟩ :=
              readVFields_some_inv h (g + 1) k v rest js hr
            subst hjs
            obtain ⟨h1, v1, hclv, hextv, hnrcv, hfreshv, hreadv⟩ := hval v h jv hc hv
            have hc1 : HeapClosed h1 := HeapClosed_of_ext h h1 hc hextv hnrcv
            have hrest1 : readVFields h1 (g + 1) rest = some jrest := by
              rw [(readV_ext h h1 hc hextv (g + 1)).2.2 rest
                (readVFields_elem_bound h hc (g + 1) rest jrest hrest)]
              exact hrest
            obtain ⟨h2, rest1, hclrest, hextrest, hnrcrest, hfreshrest, hreadrest⟩ :=
              ihx h1 jrest hc1 hrest1
            have hc2 : HeapClosed h2 := HeapClosed_of_ext h1 h2 hc1 hextrest hnrcrest
            refine ⟨h2, (k, v1) :: rest1, by simp [deepCloneFields, hclv, hclrest],
              HeapExt.trans hextv hextrest,
              NewRegion_trans h h1 h2 hextv hextrest hnrcv hnrcrest, ?_, ?_⟩
            · intro y hy
              rcases List.mem_cons.mp hy with hy | hy
              · subst hy
                intro a0 h0
                have := hfreshv a0 h0
                have hle := hextrest.1
                exact ⟨this.1, by omega⟩
              · intro a0 h0
                have := hfreshrest y hy a0 h0
                have hle := hextv.1
                exact ⟨by omega, this.2⟩
            · have hv1 : readV h2 (g + 1) v1 = some jv := by
                rw [(readV_ext h1 h2 hc1 hextrest (g + 1)).1 v1
                  (fun a0 h0 => (hfreshv a0 h0).2)]
                exact hreadv
              simp [readVFields, hv1, hreadrest]

end HeapModel

open HeapModel JSModel in
/-- **C8 counterexample.**  For the baseline `{ x: NaN }`, `reset()` does
restore a structurally identical value, but that value is **not** `isEqual`
to the baseline: the restored copy and the baseline are distinct objects, so
`isEqual` recurses into the fields and `NaN === NaN` is false.  The first
conjunct of the claim ("reset() sets the live value to one that is isEqual
to the baseline") fails at this tracker state. -/
theorem C8_counterexample :
    ((trackerReset nanHeap (HVal.href 0) 2).map (fun p => readV p.1 2 p.2)) =
      some (some (JSVal.obj [("x", JSVal.prim Prim.nan)])) ∧
    ((trackerReset nanHeap (HVal.href 0) 2).map (fun p => readV p.1 2 (HVal.href 0))) =
      some (some (JSVal.obj [("x", JSVal.prim Prim.nan)])) ∧
    isEqual (JSVal.obj [("x", JSVal.prim Prim.nan)])
      (JSVal.obj [("x", JSVal.prim Prim.nan)]) = false := by
  refine ⟨?_, ?_, rfl⟩
  · simp [trackerReset, hFalsy, falsyV, deepClone, deepCloneFields, readV,
      readVFields, alloc, nanHeap]
  · simp [trackerReset, hFalsy, falsyV, deepClone, deepCloneFields, readV,
      readVFields, alloc, nanHeap]

open HeapModel JSModel in
/-- **C8 (amended).**  For every tracker state whose baseline denotes a
well-formed, `NaN`-free plain-data value: `reset()` (a deep clone of the
baseline) succeeds and sets the live value to one that is `isEqual` to the
baseline; the restored value shares no object graph with the baseline (no
address is reachable from both); and for every subsequent in-place mutation
of the restored value (an overwrite of any node reachable from it, with any
already-allocated content), the baseline's denotation is unchanged and a
later `reset()` still restores a value `isEqual` to the original baseline. -/
theorem C8_reset_clone_no_aliasing (h : Heap) (b : HVal) (fuel : Nat) (j : JSVal)
    (hc : HeapClosed h) (hb : hFalsy b = false)
    (hr : readV h fuel b = some j)
    (hw : wfSnap j = true) (hn : noNaN j = true) :
    ∃ h1 r, trackerReset h b fuel = some (h1, r) ∧
      (∃ jr jb, readV h1 fuel r = some jr ∧ readV h1 fuel b = some jb ∧
        isEqual jr jb = true) ∧
      (∀ a, VReaches h1 r a → ¬ VReaches h1 b a) ∧
      (∀ (a : Nat) (n : HNode), VReaches h1 r a →
        (∀ c2 ∈ n.childRefs, c2 < h1.next) →
        readV (hwrite h1 a n) fuel b = some j ∧
        ∃ h2 r2, deepClone (hwrite h1 a n) fuel b = some (h2, r2) ∧
          ∃ j2, readV h2 fuel r2 = some j2 ∧ isEqual j2 j = true) := by
  obtain ⟨h1, r, hclone, hext, hnrc, hfresh, hreadr⟩ :=
    (deepClone_spec fuel).1 b h j hc hr
  have hc1 : HeapClosed h1 := HeapClosed_of_ext h h1 hc hext hnrc
  have hbbound : ∀ a0, refOf b = some a0 → a0 < h.next :=
    readV_some_bound h hc fuel b j hr
  have hreadb1 : readV h1 fuel b = some j := by
    rw [(readV_ext h h1 hc hext fuel).1 b hbbound]
    exact hr
  have hbreach_old : ∀ a, VReaches h1 b a → a < h.next := by
    rintro a ⟨ab, hrefb, hreachb⟩
    have hab : ab < h.next := hbbound ab hrefb
    exact Reaches_lt h hc (Reaches_ext h h1 hc hext hreachb hab) hab
  have hrreach_fresh : ∀ a, VReaches h1 r a → h.next ≤ a ∧ a < h1.next := by
    rintro a ⟨ar, hrefr, hreach⟩
    have har := hfresh ar hrefr
    exact ⟨Reaches_fresh_lower h h1 hnrc hreach har.1,
      Reaches_lt h1 hc1 hreach har.2⟩
  refine ⟨h1, r, ?_, ?_, ?_, ?_⟩
  · simp only [trackerReset, hb, Bool.false_eq_true, if_false]
    exact hclone
  · exact ⟨j, j, hreadr, hreadb1, isEqual_self j hw hn⟩
  · intro a har hab
    have h1a := hrreach_fresh a har
    have h2a := hbreach_old a hab
    omega
  · intro a n har hbound
    have h1a := hrreach_fresh a har
    have hnre : ∀ a0, refOf b = some a0 → ¬ Reaches h1 a0 a := by
      intro a0 h0 hreach0
      have : VReaches h1 b a := ⟨a0, h0, hreach0⟩
      have := hbreach_old a this
      omega
    have hreadb2 : readV (hwrite h1 a n) fuel b = some j := by
      rw [(readV_write h1 a n fuel).1 b hnre]
      exact hreadb1
    have hc2 : HeapClosed (hwrite h1 a n) :=
      HeapClosed_hwrite h1 a n hc1 h1a.2 hbound
    obtain ⟨h2, r2, hclone2, _, _, _, hreadr2⟩ :=
      (deepClone_spec fuel).1 b (hwrite h1 a n) j hc2 hreadb2
    exact ⟨hreadb2, h2, r2, hclone2, j, hreadr2, isEqual_self j hw hn⟩

open HeapModel JSModel in
/-- Witness for C8 at the one-record heap `{ x: 1 }`. -/
theorem C8_witness :
    (HeapClosed oneHeap ∧ hFalsy (HVal.href 0) = false ∧
     readV oneHeap 2 (HVal.href 0) = some (JSVal.obj [("x", JSVal.prim (Prim.num 1))]) ∧
     wfSnap (JSVal.obj [("x", JSVal.prim (Prim.num 1))]) = true ∧
     noNaN (JSVal.obj [("x", JSVal.prim (Prim.num 1))]) = true) ∧
    (∃ h1 r, trackerReset oneHeap (HVal.href 0) 2 = some (h1, r) ∧
      (∃ jr jb, readV h1 2 r = some jr ∧ readV h1 2 (HVal.href 0) = some jb ∧
        isEqual jr jb = true) ∧
      (∀ a, VReaches h1 r a → ¬ VReaches h1 (HVal.href 0) a) ∧
      (∀ (a : Nat) (n : HNode), VReaches h1 r a →
        (∀ c2 ∈ n.childRefs, c2 < h1.next) →
        readV (hwrite h1 a n) 2 (HVal.href 0) =
          some (JSVal.obj [("x", JSVal.prim (Prim.num 1))]) ∧
        ∃ h2 r2, deepClone (hwrite h1 a n) 2 (HVal.href 0) = some (h2, r2) ∧
          ∃ j2, readV h2 2 r2 = some j2 ∧
            isEqual j2 (JSVal.obj [("x", JSVal.prim (Prim.num 1))]) = true)) := by
  have hclosed : HeapClosed oneHeap := by
    intro a n hmem
    simp only [oneHeap] at hmem
    by_cases ha : a = 0
    · subst ha
      simp only [if_true] at hmem
      cases hmem
      refine ⟨by norm_num [oneHeap], ?_⟩
      intro b hb
      simp [HNode.childRefs, refOf] at hb
    · simp [ha] at hmem
  have hread : readV oneHeap 2 (HVal.href 0) =
      some (JSVal.obj [("x", JSVal.prim (Prim.num 1))]) := by
    simp [readV, readVFields, oneHeap]
  exact ⟨⟨hclosed, rfl, hread, rfl, rfl⟩,
    C8_reset_clone_no_aliasing oneHeap (HVal.href 0) 2
      (JSVal.obj [("x", JSVal.prim (Prim.num 1))]) hclosed rfl hread rfl rfl⟩
